import Mathlib

/-!
Verification of the core of `gemini-code-review-action`:
unified-diff parsing, position resolution, batch scheduling and the
resilient AI invoker, shallowly embedded from the TypeScript sources.
-/

/-- The JavaScript `\s` character class (the members that can occur in the
strings this code handles; lines are split on `'\n'` upstream, but `'\r'`
survives CRLF input, and the exotic unicode members are included for
fidelity to the JS semantics). -/
def isJsSpace (c : Char) : Bool :=
  c = ' ' || c = '\t' || c = '\n' || c = '\r' || c = '\x0b' || c = '\x0c' ||
  c = ' ' || c = '﻿'

/-- Remove leading JS whitespace (one side of `String.prototype.trim`). -/
def dropLeadWs (l : List Char) : List Char := l.dropWhile isJsSpace

/-- JS `String.prototype.trim` on a character list: strip `\s` on both ends. -/
def jsTrimChars (l : List Char) : List Char :=
  ((l.dropWhile isJsSpace).reverse.dropWhile isJsSpace).reverse

/-- JS `s.trim()`. -/
def jsTrim (s : String) : String := ⟨jsTrimChars s.data⟩

/-- State machine for `replace(/\s+/g, " ")`: the flag records whether the
previous character was whitespace (i.e. we are inside a run already
replaced by a single space). -/
def collapseWsAux : Bool → List Char → List Char
  | _, [] => []
  | prevWs, c :: cs =>
    if isJsSpace c then
      if prevWs then collapseWsAux true cs else ' ' :: collapseWsAux true cs
    else c :: collapseWsAux false cs

/-- JS `s.replace(/\s+/g, " ")`. -/
def collapseWs (s : String) : String := ⟨collapseWsAux false s.data⟩

/-- The normalization both resolvers apply to candidate and hunk lines:
`s.trim().replace(/\s+/g, " ")`. -/
def normalizeLine (s : String) : String := collapseWs (jsTrim s)

/-- `listLeads l p = true` iff `p` is an initial segment of `l`
(JS `String.prototype.startsWith` on char lists). -/
def listLeads : List Char → List Char → Bool
  | _, [] => true
  | [], _ :: _ => false
  | c :: cs, p :: ps => c = p && listLeads cs ps

/-- JS `s.startsWith(pre)`. -/
def jsStartsWith (s pre : String) : Bool := listLeads s.data pre.data

/-- JS `Array.prototype.findIndex`: index of the first element satisfying
`p`, `-1` if none. -/
def jsFindIndex (p : α → Bool) : List α → Int
  | [] => -1
  | x :: xs =>
    if p x then 0
    else if jsFindIndex p xs = -1 then -1 else jsFindIndex p xs + 1

/-! ## Data model (src/types/diff.ts, src/types/github.ts, src/types/ai.ts) -/

/-- `HunkData` from src/types/diff.ts. -/
structure HunkData where
  header : String
  lines : List String
  deriving Repr, DecidableEq

/-- `FileData` from src/types/diff.ts (the optional `encoding` field is
never read by the core and is omitted). -/
structure FileData where
  path : String
  hunks : List HunkData
  fullContent : Option String := none
  deriving Repr, DecidableEq

/-- `ReviewComment`: `{body, path, position}`; `position` is the JS number
computed by the resolvers (`findIndex + 1`). -/
structure ReviewComment where
  body : String
  path : String
  position : Int
  deriving Repr, DecidableEq

/-- `AiReviewResponse` from src/types/ai.ts. -/
structure AiReviewResponse where
  lineContent : String
  reviewComment : String
  deriving Repr, DecidableEq

/-- `BatchFileContent` from src/types/ai.ts. -/
structure BatchFileContent where
  path : String
  content : String
  estimatedTokens : Nat
  originalHunks : List HunkData
  fullFileContent : Option String := none
  deriving Repr, DecidableEq

/-- `BatchReviewRequest` from src/types/ai.ts. -/
structure BatchReviewRequest where
  files : List BatchFileContent
  totalEstimatedTokens : Nat
  deriving Repr, DecidableEq

/-! ## Position resolution (src/utils/helpers.ts `createCommentsFromAiResponses`,
src/services/batch-processor.ts `findFileAndPosition`,
`createCommentsFromBatchResponse`) -/

/-- Body of the loop of `createCommentsFromAiResponses`: process one AI
response, appending at most one comment.  The guard mirrors
`!lineContent || !lineContent.trim().startsWith("+")`; an empty JS string
is the only falsy string. -/
def commentStep (filePath : String) (hunk : HunkData)
    (comments : List ReviewComment) (aiResponse : AiReviewResponse) :
    List ReviewComment :=
  let lineContent := aiResponse.lineContent
  if lineContent = "" || !(jsStartsWith (jsTrim lineContent) "+") then comments
  else
    let normalizedAiLine := normalizeLine lineContent
    let position :=
      jsFindIndex (fun hunkLine => normalizeLine hunkLine = normalizedAiLine)
        hunk.lines + 1
    if position = 0 then comments
    else comments ++ [⟨aiResponse.reviewComment, filePath, position⟩]

/-- `createCommentsFromAiResponses` (src/utils/helpers.ts:75-122). -/
def createCommentsFromAiResponses (filePath : String) (hunk : HunkData)
    (aiResponses : List AiReviewResponse) : List ReviewComment :=
  aiResponses.foldl (commentStep filePath hunk) []

/-- `findFileAndPosition` (src/services/batch-processor.ts:147-172): scan
files, then hunks, returning the first hunk position whose normalized line
equals the normalized candidate. -/
def findFileAndPosition (batch : BatchReviewRequest) (lineContent : String) :
    Option (String × Int) :=
  let normalizedAiLine := normalizeLine lineContent
  batch.files.findSome? fun file =>
    file.originalHunks.findSome? fun hunk =>
      let position :=
        jsFindIndex (fun hunkLine => normalizeLine hunkLine = normalizedAiLine)
          hunk.lines + 1
      if position > 0 then some (file.path, position) else none

/-- Body of the loop of `createCommentsFromBatchResponse`. -/
def batchCommentStep (batch : BatchReviewRequest)
    (comments : List ReviewComment) (aiResponse : AiReviewResponse) :
    List ReviewComment :=
  let lineContent := aiResponse.lineContent
  if lineContent = "" || !(jsStartsWith (jsTrim lineContent) "+") then comments
  else
    match findFileAndPosition batch lineContent with
    | none => comments
    | some (filePath, position) =>
        comments ++ [⟨aiResponse.reviewComment, filePath, position⟩]

/-- `createCommentsFromBatchResponse` (src/services/batch-processor.ts:96-145). -/
def createCommentsFromBatchResponse (batch : BatchReviewRequest)
    (aiResponses : List AiReviewResponse) : List ReviewComment :=
  aiResponses.foldl (batchCommentStep batch) []

/-! ### Specification-side predicates for the resolvers -/

/-- `pos` is the 1-based index of the FIRST line of `hunk` whose
normalization equals the normalization of `cand`. -/
def firstMatchPos (cand : String) (hunk : HunkData) (pos : Int) : Prop :=
  ∃ n : ℕ, pos = (n : Int) + 1 ∧
    (∃ L, hunk.lines[n]? = some L ∧ normalizeLine L = normalizeLine cand) ∧
    ∀ j < n, ∀ L, hunk.lines[j]? = some L →
      normalizeLine L ≠ normalizeLine cand

/-- The exact condition under which `commentStep` appends a comment `c`
for the response `r`. -/
def emittedFrom (filePath : String) (hunk : HunkData) (r : AiReviewResponse)
    (c : ReviewComment) : Prop :=
  r.lineContent ≠ "" ∧ jsStartsWith (jsTrim r.lineContent) "+" = true ∧
  jsFindIndex (fun L => normalizeLine L = normalizeLine r.lineContent)
      hunk.lines ≠ -1 ∧
  c = ⟨r.reviewComment, filePath,
       jsFindIndex (fun L => normalizeLine L = normalizeLine r.lineContent)
         hunk.lines + 1⟩

/-- `hunk` contains a line whose trimmed text starts with `'+'` and whose
normalization equals the normalization of `cand`.  (Addition lines start
with `'+'` untrimmed; a context line whose own content begins with `'+'`
also satisfies this.) -/
def plusMatchLine (cand : String) (hunk : HunkData) : Prop :=
  ∃ L ∈ hunk.lines, jsStartsWith (jsTrim L) "+" = true ∧
    normalizeLine L = normalizeLine cand

/-- The exact condition under which `batchCommentStep` appends a comment
`c` for the response `r`. -/
def batchEmittedFrom (batch : BatchReviewRequest) (r : AiReviewResponse)
    (c : ReviewComment) : Prop :=
  r.lineContent ≠ "" ∧ jsStartsWith (jsTrim r.lineContent) "+" = true ∧
  ∃ filePath pos,
    findFileAndPosition batch r.lineContent = some (filePath, pos) ∧
    c = ⟨r.reviewComment, filePath, pos⟩

/-! ## Batch scheduling (src/services/batch-processor.ts) -/

/-- `combineHunksToContent` (batch-processor.ts:83-88):
`hunks.filter(h => h.lines.length > 0).map(h => h.lines.join("\n")).join("\n\n")`. -/
def combineHunksToContent (hunks : List HunkData) : String :=
  String.intercalate "\n\n"
    ((hunks.filter (fun hunk => hunk.lines.length > 0)).map
      (fun hunk => String.intercalate "\n" hunk.lines))

/-- `estimateTokens` (batch-processor.ts:90-94): `Math.ceil(length / 3.5)`,
computed exactly as `⌈2·length / 7⌉` over the naturals.  (JS string length
counts UTF-16 code units; we count characters, which agrees outside
surrogate pairs.) -/
def estimateTokens (content : String) : Nat := (2 * content.length + 6) / 7

/-- The `BatchFileContent` record that `createBatches` pushes for `file`. -/
def mkBatchUnit (file : FileData) : BatchFileContent :=
  { path := file.path
    content := combineHunksToContent file.hunks
    estimatedTokens := estimateTokens (combineHunksToContent file.hunks)
    originalHunks := file.hunks
    fullFileContent := file.fullContent }

/-- The skip guard of `createBatches`: a file is processed unless
`!file.path || file.path === "/dev/null"`. -/
def eligibleFile (file : FileData) : Bool :=
  !(file.path = "" || file.path = "/dev/null")

/-- The loop of `createBatches` (batch-processor.ts:19-81) in state-passing
form: `batches` are the closed batches in order, `currentBatch` and
`currentTokenCount` the batch being built.  After the loop, a non-empty
in-progress batch is flushed. -/
def createBatchesGo (maxBatchSize maxTokensPerBatch : Nat) :
    List FileData → List BatchReviewRequest → List BatchFileContent → Nat →
    List BatchReviewRequest
  | [], batches, currentBatch, currentTokenCount =>
    if currentBatch.length > 0 then
      batches ++ [⟨currentBatch, currentTokenCount⟩]
    else batches
  | file :: rest, batches, currentBatch, currentTokenCount =>
    if eligibleFile file then
      let estimatedTokens := (mkBatchUnit file).estimatedTokens
      if (currentTokenCount + estimatedTokens > maxTokensPerBatch ∨
            currentBatch.length ≥ maxBatchSize) ∧ currentBatch.length > 0 then
        createBatchesGo maxBatchSize maxTokensPerBatch rest
          (batches ++ [⟨currentBatch, currentTokenCount⟩])
          [mkBatchUnit file] estimatedTokens
      else
        createBatchesGo maxBatchSize maxTokensPerBatch rest batches
          (currentBatch ++ [mkBatchUnit file])
          (currentTokenCount + estimatedTokens)
    else
      createBatchesGo maxBatchSize maxTokensPerBatch rest batches
        currentBatch currentTokenCount

/-- `createBatches` (the constructor defaults are `maxBatchSize = 10`,
`maxTokensPerBatch = 12000`). -/
def createBatches (maxBatchSize maxTokensPerBatch : Nat)
    (files : List FileData) : List BatchReviewRequest :=
  createBatchesGo maxBatchSize maxTokensPerBatch files [] [] 0

/-! ## Resilient AI invoker (src/services/ai-service.ts) -/

/-- `rpmLimits` (ai-service.ts:34-40), in object-literal insertion order
(which `Object.keys` preserves for string keys). -/
def rpmLimits : List (String × Nat) :=
  [("gemini-2.5-pro", 5), ("gemini-2.5-flash", 10),
   ("gemini-2.5-flash-lite", 15), ("gemini-2.0-flash", 15),
   ("gemini-2.0-flash-lite", 30)]

/-- JS property lookup `this.rpmLimits[m]` (`none` = `undefined`). -/
def rpmLookup (m : String) : Option Nat :=
  (rpmLimits.find? (fun kv => kv.fst = m)).map Prod.snd

/-- `this.rpmLimits[this.currentModelName] || 5` (ai-service.ts:56).  The
table holds no zero, so `|| 5` only replaces a missing entry. -/
def rpmOf (m : String) : Nat := (rpmLookup m).getD 5

/-- `Math.ceil(60000 / rpm)` (ai-service.ts:57, `updateRateLimitDelay`). -/
def rateLimitDelayFor (m : String) : Nat :=
  (60000 + rpmOf m - 1) / rpmOf m

/-- Stable insertion realizing `Array.prototype.sort` (stable per spec)
with the comparator `(a, b) => this.rpmLimits[b] - this.rpmLimits[a]`,
i.e. descending requests-per-minute: `x` is placed before the first
element whose rpm is `≤` its own, so equal keys keep insertion order. -/
def insertByRpmDesc (x : String) : List String → List String
  | [] => [x]
  | y :: ys =>
    if rpmOf y ≤ rpmOf x then x :: y :: ys else y :: insertByRpmDesc x ys

/-- `this.modelHierarchy = Object.keys(this.rpmLimits).sort((a, b) =>
this.rpmLimits[b] - this.rpmLimits[a])` (ai-service.ts:42-44). -/
def modelHierarchy : List String :=
  (rpmLimits.map Prod.fst).foldr insertByRpmDesc []

/-- JS `array.indexOf(x)` (first occurrence, `-1` if absent). -/
def jsIndexOf (l : List String) (x : String) : Int :=
  jsFindIndex (fun y => y = x) l

/-- The (0-based) tier position of a model in the rate-limit-ordered
hierarchy, `-1` for a model outside it. -/
def hierPos (m : String) : Int := jsIndexOf modelHierarchy m

/-- `getNextLowerModel` (ai-service.ts:60-71): `null` when the model is
unknown or already last in the hierarchy, otherwise the next entry. -/
def getNextLowerModel (currentModelName : String) : Option String :=
  let currentIndex := jsIndexOf modelHierarchy currentModelName
  if currentIndex = -1 ∨ currentIndex = (modelHierarchy.length : Int) - 1 then
    none
  else
    modelHierarchy[(currentIndex + 1).toNat]?

/-- The mutable fields of `AIService` that the retry logic reads and
writes: `currentModelName` and `rateLimitDelay`.  (`lastRequestTime` and
the real-time waits of `enforceRateLimit` are out of a shallow
embedding's scope.) -/
structure InvokerState where
  currentModelName : String
  rateLimitDelay : Nat
  deriving Repr, DecidableEq

/-- `derankModel` (ai-service.ts:73-97) as a pure state transition: the JS
return value paired with the updated state.  On success the model moves to
`getNextLowerModel` and `updateRateLimitDelay` recomputes the interval. -/
def derankModel (s : InvokerState) : Bool × InvokerState :=
  match getNextLowerModel s.currentModelName with
  | none => (false, s)
  | some nextModel =>
    (true, { currentModelName := nextModel,
             rateLimitDelay := rateLimitDelayFor nextModel })

/-! ### Response payloads (JSON model) -/

/-- JSON values, as produced by `JSON.parse` (numbers as integers: the
payloads the service validates carry no fractional data). -/
inductive Json where
  | null
  | bool (b : Bool)
  | num (n : Int)
  | str (s : String)
  | arr (elems : List Json)
  | obj (fields : List (String × Json))

/-- JS truthiness of a JSON value. -/
def jsTruthy : Json → Bool
  | .null => false
  | .bool b => b
  | .num n => n ≠ 0
  | .str s => s ≠ ""
  | .arr _ => true
  | .obj _ => true

/-- Property access `v[key]` on a non-null JSON value: objects yield the
field (`none` = `undefined`), everything else `undefined`.  Access on
`null` throws a TypeError; the throwing paths are modeled explicitly at
the use sites in `processResponseText`. -/
def jsProp (v : Json) (key : String) : Option Json :=
  match v with
  | .obj fields => (fields.find? (fun kv => kv.fst = key)).map Prod.snd
  | _ => none

/-- Truthiness of a possibly-`undefined` value. -/
def jsTruthyOpt : Option Json → Bool
  | none => false
  | some v => jsTruthy v

def isJsonNull : Json → Bool
  | .null => true
  | _ => false

/-- JS `s.slice(n)` (for the in-range uses below). -/
def jsDrop (s : String) (n : Nat) : String := ⟨s.data.drop n⟩

/-- JS `s.slice(0, -n)` (for the in-range uses below). -/
def jsDropRight (s : String) (n : Nat) : String :=
  ⟨s.data.take (s.data.length - n)⟩

/-- JS `s.endsWith(suf)`. -/
def jsEndsWith (s suf : String) : Bool :=
  listLeads s.data.reverse suf.data.reverse

/-- The code-fence cleanup of ai-service.ts:229-236: trim, strip a leading
"```json", strip a trailing "```", trim again. -/
def cleanedResponseText (raw : String) : String :=
  let responseText := jsTrim raw
  let r1 := if jsStartsWith responseText "```json" then jsDrop responseText 7
            else responseText
  let r2 := if jsEndsWith r1 "```" then jsDropRight r1 3 else r1
  jsTrim r2

/-- Cleanup, parse and validation of a successful response
(ai-service.ts:223-253).  `JSON.parse` is modeled by the abstract total
function `parseJson` (`none` = the parse threw a SyntaxError); every
theorem below holds for an arbitrary such function.  Property access on
`null` throws a TypeError which the surrounding `catch` turns into `[]`;
the two explicit `null` guards model exactly those throwing paths. -/
def processResponseText (parseJson : String → Option Json)
    (text : Option String) : List Json :=
  match text with
  | none => []                -- `result.text?.trim()` undefined → `!responseText`
  | some raw =>
    if jsTrim raw = "" then []  -- empty response text
    else
      match parseJson (cleanedResponseText raw) with
      | none => []            -- JSON.parse threw; caught (no `status`) → []
      | some Json.null => []  -- `data.reviews` on null throws; caught → []
      | some data =>
        match jsProp data "reviews" with
        | some (Json.arr reviews) =>
          if reviews.any isJsonNull then []
            -- `review.lineContent` on a null entry throws inside
            -- `Array.prototype.filter`; caught → []
          else
            reviews.filter (fun review =>
              jsTruthyOpt (jsProp review "lineContent") &&
              jsTruthyOpt (jsProp review "reviewComment"))
        | _ => []             -- `data.reviews` missing, falsy or not an array

/-- `maxRetries` (ai-service.ts:200). -/
def maxRetries : Nat := 3

/-- Outcome of one `generateContent` attempt as observed by
`getAiResponse`: the call returned (`result.text`, possibly `undefined`),
or it threw an error whose `status` property (when present on an object
error) is recorded. -/
inductive CallOutcome where
  | ok (text : Option String)
  | err (status : Option Int)

/-- Result of a `getAiResponse` run, with ghost instrumentation: the model
selected for each attempt (in order) and the exponential-backoff waits
performed (in order, ms). -/
structure GoResult where
  reviews : List Json
  state : InvokerState
  modelsUsed : List String
  backoffs : List Nat

/-- `getAiResponse` (ai-service.ts:195-292) as a state machine over
attempt outcomes; `oracle k` is the outcome of the attempt made with
`retryCount = k`.  The JS recursion increments `retryCount` and only
recurses while `retryCount < maxRetries`; it is realized structurally on
the remaining-attempt budget `fuel` (entered with
`fuel = maxRetries + 1 - retryCount`, making the `fuel = 0` branch
unreachable from `getAiResponse`).  On a 429 with `retryCount === 0`,
`derankModel()` is invoked (mutating the state) and on success the retry
happens immediately with no backoff entry; otherwise the backoff
`min(1000·2^retryCount, 30000)` is recorded and the retry proceeds. -/
def getAiResponseGo (parseJson : String → Option Json)
    (oracle : Nat → CallOutcome) :
    Nat → Nat → InvokerState → GoResult
  | 0, _, s => ⟨[], s, [s.currentModelName], []⟩
  | fuel + 1, retryCount, s =>
    match oracle retryCount with
    | .ok text =>
      ⟨processResponseText parseJson text, s, [s.currentModelName], []⟩
    | .err status =>
      if status = some 429 then
        if retryCount < maxRetries then
          if retryCount = 0 ∧ (derankModel s).fst = true then
            let r := getAiResponseGo parseJson oracle fuel (retryCount + 1)
              (derankModel s).snd
            ⟨r.reviews, r.state, s.currentModelName :: r.modelsUsed,
             r.backoffs⟩
          else
            let backoffDelay := min (1000 * 2 ^ retryCount) 30000
            let r := getAiResponseGo parseJson oracle fuel (retryCount + 1) s
            ⟨r.reviews, r.state, s.currentModelName :: r.modelsUsed,
             backoffDelay :: r.backoffs⟩
        else ⟨[], s, [s.currentModelName], []⟩  -- max retries exceeded
      else ⟨[], s, [s.currentModelName], []⟩    -- non-retryable failure

/-- Entry point: a logical request starts at `retryCount = 0`. -/
def getAiResponse (parseJson : String → Option Json)
    (oracle : Nat → CallOutcome) (s : InvokerState) : GoResult :=
  getAiResponseGo parseJson oracle (maxRetries + 1) 0 s

/-- A run: logical requests processed sequentially through one invoker
instance, threading its state (as `analyzeCodeChanges` does).  Ghost
output: the concatenated per-attempt model names. -/
def runRequests (parseJson : String → Option Json) :
    List (Nat → CallOutcome) → InvokerState → InvokerState × List String
  | [], s => (s, [])
  | oracle :: rest, s =>
    let r := getAiResponse parseJson oracle s
    let result := runRequests parseJson rest r.state
    (result.fst, r.modelsUsed ++ result.snd)

/-! ## Batch-mode analysis and fallback
(src/services/code-analysis-service.ts `analyzeBatchMode`) -/

/-- The `FileData` list rebuilt for the per-file fallback:
`batch.files.map(f => ({path: f.path, hunks: f.originalHunks}))`
(code-analysis-service.ts:96,116); `fullContent` is not carried over. -/
def fallbackFiles (batch : BatchReviewRequest) : List FileData :=
  batch.files.map (fun f => { path := f.path, hunks := f.originalHunks })

/-- The loop of `analyzeBatchMode` (code-analysis-service.ts:69-127):
batches are processed sequentially, accumulating into `allComments`.
`reviewBatch i` is the outcome of the awaited `aiService.reviewBatch`
call for batch `i` (`.error` = the call threw); `processIndiv` abstracts
`processFilesIndividually`, whose own output depends on further external
calls.  A thrown call, or zero responses for a non-empty batch, routes the
batch's files through the per-file fallback. -/
def analyzeBatchModeGo
    (reviewBatch : Nat → Except Unit (List AiReviewResponse))
    (processIndiv : List FileData → List ReviewComment) :
    Nat → List BatchReviewRequest → List ReviewComment → List ReviewComment
  | _, [], allComments => allComments
  | i, batch :: rest, allComments =>
    match reviewBatch i with
    | .error _ =>
      analyzeBatchModeGo reviewBatch processIndiv (i + 1) rest
        (allComments ++ processIndiv (fallbackFiles batch))
    | .ok aiResponses =>
      let comments := createCommentsFromBatchResponse batch aiResponses
      if aiResponses.length = 0 ∧ batch.files.length > 0 then
        analyzeBatchModeGo reviewBatch processIndiv (i + 1) rest
          (allComments ++ processIndiv (fallbackFiles batch))
      else
        analyzeBatchModeGo reviewBatch processIndiv (i + 1) rest
          (allComments ++ comments)

/-- `analyzeBatchMode` (code-analysis-service.ts:59-133): create the
batches, then run the loop. -/
def analyzeBatchMode
    (reviewBatch : Nat → Except Unit (List AiReviewResponse))
    (processIndiv : List FileData → List ReviewComment)
    (maxBatchSize maxTokensPerBatch : Nat) (files : List FileData) :
    List ReviewComment :=
  analyzeBatchModeGo reviewBatch processIndiv 0
    (createBatches maxBatchSize maxTokensPerBatch files) []

/-- Specification-side: the comments contributed by batch number `i`. -/
def batchContribution
    (reviewBatch : Nat → Except Unit (List AiReviewResponse))
    (processIndiv : List FileData → List ReviewComment)
    (i : Nat) (batch : BatchReviewRequest) : List ReviewComment :=
  match reviewBatch i with
  | .error _ => processIndiv (fallbackFiles batch)
  | .ok aiResponses =>
    if aiResponses.length = 0 ∧ batch.files.length > 0 then
      processIndiv (fallbackFiles batch)
    else
      createCommentsFromBatchResponse batch aiResponses

/-- Specification-side: the concatenated contributions of the batches,
numbered from `i`. -/
def contributionsFrom
    (reviewBatch : Nat → Except Unit (List AiReviewResponse))
    (processIndiv : List FileData → List ReviewComment) :
    Nat → List BatchReviewRequest → List ReviewComment
  | _, [] => []
  | i, batch :: rest =>
    batchContribution reviewBatch processIndiv i batch ++
      contributionsFrom reviewBatch processIndiv (i + 1) rest

/-! ## Unified-diff parser (src/parsers/diff-parser.ts)

Line classification is by JS regexes; each regex used by the parser is
realized as a hand-rolled matcher over the line's characters, faithful to
the regex's backtracking semantics (noted where relevant). -/

/-- JS `\d`. -/
def isDigitChar (c : Char) : Bool := '0' ≤ c && c ≤ '9'

/-- `[\da-zA-Z]`. -/
def isAlnumChar (c : Char) : Bool :=
  isDigitChar c || ('a' ≤ c && c ≤ 'z') || ('A' ≤ c && c ≤ 'Z')

/-- JS `.` (anything but a line terminator). -/
def isDotChar (c : Char) : Bool :=
  !(c = '\n' || c = '\r' || c = '\u2028' || c = '\u2029')

/-- Decimal value of a digit run. -/
def digitsToNat (l : List Char) : Nat :=
  l.foldl (fun acc c => 10 * acc + (c.toNat - '0'.toNat)) 0

/-- `(\d+),?(\d+)?` as used in the hunk-header regex: a maximal digit
run, an optional comma, then an optional second maximal digit run.
Greediness is deterministic here because a digit run cannot contain the
characters that must follow (`,`, whitespace, `@`). -/
def readDigitSection (l : List Char) :
    Option (Nat × Option Nat × List Char) :=
  let d1 := l.takeWhile isDigitChar
  let r1 := l.dropWhile isDigitChar
  if d1.isEmpty then none
  else
    match r1 with
    | ',' :: r2 =>
      let d2 := r2.takeWhile isDigitChar
      let r3 := r2.dropWhile isDigitChar
      if d2.isEmpty then some (digitsToNat d1, none, r2)
      else some (digitsToNat d1, some (digitsToNat d2), r3)
    | _ => some (digitsToNat d1, none, r1)

/-- `/^@@\s+-(\d+),?(\d+)?\s+\+(\d+),?(\d+)?\s@@/` — the hunk
header (note: exactly ONE whitespace before the closing `@@`, and
arbitrary trailing text is allowed). -/
def matchChunkHeader (line : String) :
    Option (Nat × Option Nat × Nat × Option Nat) :=
  match line.data with
  | '@' :: '@' :: rest =>
    let ws1 := rest.takeWhile isJsSpace
    let r1 := rest.dropWhile isJsSpace
    if ws1.isEmpty then none
    else
      match r1 with
      | '-' :: r2 =>
        match readDigitSection r2 with
        | none => none
        | some (oldStart, oldNum, r3) =>
          let ws2 := r3.takeWhile isJsSpace
          let r4 := r3.dropWhile isJsSpace
          if ws2.isEmpty then none
          else
            match r4 with
            | '+' :: r5 =>
              match readDigitSection r5 with
              | none => none
              | some (newStart, newNum, r6) =>
                match r6 with
                | w :: '@' :: '@' :: _ =>
                  if isJsSpace w then
                    some (oldStart, oldNum, newStart, newNum)
                  else none
                | _ => none
            | _ => none
      | _ => none
  | _ => none

/-- `/^diff\s/`. -/
def isDiffLine (line : String) : Bool :=
  match line.data with
  | 'd' :: 'i' :: 'f' :: 'f' :: c :: _ => isJsSpace c
  | _ => false

/-- Strip an exact leading character sequence (`none` if absent). -/
def dropLeadChars : List Char → List Char → Option (List Char)
  | l, [] => some l
  | [], _ :: _ => none
  | c :: cs, p :: ps => if c = p then dropLeadChars cs ps else none

/-- `/^<pre>(\d+)$/` for the four mode-line regexes (`new file mode `,
`deleted file mode `, `old mode `, `new mode `); returns the capture. -/
def matchModeLine (pre : String) (line : String) : Option String :=
  match dropLeadChars line.data pre.data with
  | none => none
  | some r =>
    let d := r.takeWhile isDigitChar
    let r2 := r.dropWhile isDigitChar
    if d.isEmpty then none
    else if r2.isEmpty then some ⟨d⟩ else none

/-- `/^index\s[\da-zA-Z]+\.\.[\da-zA-Z]+(\s(\d+))?$/`; returns the
outer optional capture `match[1]` (a whitespace character followed by the
digits) when present. -/
def matchIndexLine (line : String) : Option (Option String) :=
  match dropLeadChars line.data "index".data with
  | none => none
  | some r =>
    match r with
    | c :: r1 =>
      if isJsSpace c then
        let a1 := r1.takeWhile isAlnumChar
        let r2 := r1.dropWhile isAlnumChar
        if a1.isEmpty then none
        else
          match r2 with
          | '.' :: '.' :: r3 =>
            let a2 := r3.takeWhile isAlnumChar
            let r4 := r3.dropWhile isAlnumChar
            if a2.isEmpty then none
            else
              match r4 with
              | [] => some none
              | w :: r5 =>
                if isJsSpace w then
                  let d := r5.takeWhile isDigitChar
                  let r6 := r5.dropWhile isDigitChar
                  if d.isEmpty then none
                  else if r6.isEmpty then some (some ⟨w :: d⟩) else none
                else none
          | _ => none
      else none
    | [] => none

/-- `/^---\s/`. -/
def isFromFileLine (line : String) : Bool :=
  match line.data with
  | '-' :: '-' :: '-' :: c :: _ => isJsSpace c
  | _ => false

/-- `/^\+\+\+\s/`. -/
def isToFileLine (line : String) : Bool :=
  match line.data with
  | '+' :: '+' :: '+' :: c :: _ => isJsSpace c
  | _ => false

/-- `/^\\ No newline at end of file$/`. -/
def eofLiteral : String := "\\ No newline at end of file"

def isEofLine (line : String) : Bool := line = eofLiteral

/-! ### File-name extraction (`parseFiles`, `parseOldOrNewFile`) -/

/-- First set of `fileNameDiffRegex`'s first alternative:
`(a|i|w|c|o|1|2)`. -/
def isANameChar (c : Char) : Bool :=
  c = 'a' || c = 'i' || c = 'w' || c = 'c' || c = 'o' || c = '1' || c = '2'

/-- `(b|i|w|c|o|1|2)`. -/
def isBNameChar (c : Char) : Bool :=
  c = 'b' || c = 'i' || c = 'w' || c = 'c' || c = 'o' || c = '1' || c = '2'

def isQuoteChar (c : Char) : Bool := c = '"' || c = '\''

/-- Consume an optional quote (`["']?`). -/
def optQuote : List Char → List Char
  | c :: rest => if isQuoteChar c then rest else c :: rest
  | [] => []

/-- The lookahead `(?=["']? ["']?(b|i|w|c|o|1|2)\/)`. -/
def lookaheadB (l : List Char) : Bool :=
  match optQuote l with
  | ' ' :: l2 =>
    match optQuote l2 with
    | c :: '/' :: _ => isBNameChar c
    | _ => false
  | _ => false

/-- Greedy `.*(?=lookahead)`: the largest `k` such that the skipped
characters are all `.`-matchable and the lookahead holds at `k`. -/
def findMaxLookahead (rest : List Char) : Option Nat :=
  ((List.range (rest.length + 1)).reverse).find?
    (fun k => (rest.take k).all isDotChar && lookaheadB (rest.drop k))

/-- One attempt of `fileNameDiffRegex` at the current position: first
alternative `(a|i|w|c|o|1|2)\/.*(?=...)`, then `(b|i|w|c|o|1|2)\/.*$`.
Returns the match's length and text. -/
def matchFileNamesAt (l : List Char) : Option (Nat × List Char) :=
  match l with
  | c :: '/' :: rest =>
    let alt2 : Option (Nat × List Char) :=
      if isBNameChar c && rest.all isDotChar then some (l.length, l) else none
    if isANameChar c then
      match findMaxLookahead rest with
      | some k => some (2 + k, c :: '/' :: rest.take k)
      | none => alt2
    else alt2
  | _ => none

/-- `line.match(fileNameDiffRegex)` (global): scan left to right, taking
each match and resuming after it.  Every match consumes at least two
characters, so the remaining length is a valid structural fuel. -/
def matchAllFileNames : Nat → List Char → List (List Char)
  | 0, _ => []
  | _ + 1, [] => []
  | fuel + 1, l@(_ :: rest) =>
    match matchFileNamesAt l with
    | some (len, m) => m :: matchAllFileNames fuel (l.drop len)
    | none => matchAllFileNames fuel rest

/-- `gitFileHeaderRegex` strip: `^(a|b|i|w|c|o|1|2)\/` (non-global, one
replacement). -/
def stripGitHeader (l : List Char) : List Char :=
  match l with
  | c :: '/' :: rest =>
    if isANameChar c || isBNameChar c then rest else l
  | _ => l

/-- `.replace(/("|')$/, "")`: drop one trailing quote. -/
def stripTrailingQuote (l : List Char) : List Char :=
  match l.reverse with
  | c :: rest => if c = '"' || c = '\'' then rest.reverse else l
  | [] => l

/-- `parseFiles` (diff-parser.ts:560-565): `none` models a `null`
`match` result. -/
def parseFiles (line : String) : Option (List String) :=
  match matchAllFileNames (line.data.length + 1) line.data with
  | [] => none
  | ms => some (ms.map (fun m => ⟨stripTrailingQuote (stripGitHeader m)⟩))

/-- `leftTrimChars(line, "-+")`: strip leading `[-+]+`. -/
def leftTrimDashPlus (l : List Char) : List Char :=
  l.dropWhile (fun c => c = '-' || c = '+')

/-- The timezone tail `\s(\+|-)\d\d\d\d` of `timeStampRegex`. -/
def matchZone : List Char → Bool
  | w :: sgn :: d1 :: d2 :: d3 :: d4 :: _ =>
    isJsSpace w && (sgn = '+' || sgn = '-') && isDigitChar d1 &&
      isDigitChar d2 && isDigitChar d3 && isDigitChar d4
  | _ => false

/-- `(.\d+)?\s(\+|-)\d\d\d\d`: try the optional fractional-seconds group
greedily, fall back to the bare zone. -/
def matchTsTail (l : List Char) : Bool :=
  match l with
  | c :: r1 =>
    if isDotChar c then
      let d := r1.takeWhile isDigitChar
      let r2 := r1.dropWhile isDigitChar
      (!d.isEmpty && matchZone r2) || matchZone l
    else matchZone l
  | [] => false

/-- `\d{4}-\d\d-\d\d\s\d\d:\d\d:\d\d`; returns the remainder after the
seconds on success. -/
def matchDateAt : List Char → Option (List Char)
  | y1 :: y2 :: y3 :: y4 :: '-' :: m1 :: m2 :: '-' :: d1 :: d2 :: w ::
      h1 :: h2 :: ':' :: n1 :: n2 :: ':' :: s1 :: s2 :: rest =>
    if isDigitChar y1 && isDigitChar y2 && isDigitChar y3 && isDigitChar y4 &&
        isDigitChar m1 && isDigitChar m2 && isDigitChar d1 && isDigitChar d2 &&
        isJsSpace w && isDigitChar h1 && isDigitChar h2 && isDigitChar n1 &&
        isDigitChar n2 && isDigitChar s1 && isDigitChar s2 then
      some rest
    else none
  | _ => none

/-- Leftmost index where `timeStampRegex` (`/\t.*|<date>/`) matches. -/
def tsIndexAux : List Char → Nat → Option Nat
  | [], _ => none
  | l@(c :: rest), i =>
    if c = '\t' then some i
    else if (match matchDateAt l with
             | some r => matchTsTail r
             | none => false) then some i
    else tsIndexAux rest (i + 1)

/-- `removeTimeStamp` (diff-parser.ts:590-596). -/
def removeTimeStamp (s : String) : String :=
  match tsIndexAux s.data 0 with
  | none => s
  | some i => jsTrim ⟨s.data.take i⟩

/-- `.replace(quotedFileNameRegex, "")` with
`quotedFileNameRegex = /^\\?['"]|\\?['"]$/g`: remove an optional-backslash
quote at the start and one at the end. -/
def stripQuotedName (l : List Char) : List Char :=
  let l1 :=
    match l with
    | '\\' :: q :: rest => if isQuoteChar q then rest else l
    | q :: rest => if isQuoteChar q then rest else l
    | [] => l
  match l1.reverse with
  | q :: '\\' :: rest => if isQuoteChar q then rest.reverse else l1
  | q :: rest => if isQuoteChar q then rest.reverse else l1
  | [] => l1

/-- `parseOldOrNewFile` (diff-parser.ts:569-575). -/
def parseOldOrNewFile (line : String) : String :=
  let fileName := jsTrim ⟨leftTrimDashPlus line.data⟩
  let fileName := removeTimeStamp fileName
  ⟨stripGitHeader (stripQuotedName fileName.data)⟩

/-! ### Parser data model (src/parsers/types.ts) and state

JS mutates `currentFile` (always the most recently pushed file) and
`currentChunk` (always the LAST chunk of the file that was current when
the chunk opened) in place; the state below realizes those aliases as the
index `chunkOwner` into `files` plus updates of the last list entries. -/

/-- `DiffChange`: the boolean tag (`normal`/`del`/`add`) always equals
`type` and is omitted; `ln1`/`ln2` are set for context lines, `ln` for
del/add lines (the end-of-file marker copies whatever its predecessor
has). -/
structure DiffChange where
  type : String
  ln1 : Option Int := none
  ln2 : Option Int := none
  ln : Option Int := none
  content : String
  deriving Repr, DecidableEq

/-- `DiffChunk`. -/
structure DiffChunk where
  content : String
  changes : List DiffChange
  oldStart : Nat
  oldLines : Nat
  newStart : Nat
  newLines : Nat
  deriving Repr, DecidableEq

/-- `ParsedFile` (`from`/`to` are Lean keywords and are embedded as
`fromPath`/`toPath`). -/
structure ParsedFile where
  chunks : List DiffChunk
  deletions : Nat
  additions : Nat
  fromPath : String
  toPath : String
  isNewFile : Bool := false
  isDeletedFile : Bool := false
  oldMode : Option String := none
  newMode : Option String := none
  index : Option (List String) := none
  deriving Repr, DecidableEq

/-- The interleaved-state record `FileChanges` (remaining old/new line
budgets; they can go negative on malformed input, hence `Int`). -/
structure FileChanges where
  oldLines : Int
  newLines : Int
  deriving Repr, DecidableEq

/-- The parser's mutable state. -/
structure PState where
  files : List ParsedFile
  chunkOwner : Option Nat
  deletedLineCounter : Int
  addedLineCounter : Int
  currentFileChanges : Option FileChanges
  deriving Repr, DecidableEq

def initPState : PState := ⟨[], none, 0, 0, none⟩

/-- In-place update of the `i`-th list entry. -/
def updateAt : List α → Nat → (α → α) → List α
  | [], _, _ => []
  | x :: xs, 0, f => f x :: xs
  | x :: xs, n + 1, f => x :: updateAt xs n f

/-- In-place update of the last list entry. -/
def updateLast (l : List α) (f : α → α) : List α :=
  updateAt l (l.length - 1) f

/-- `currentChunk.changes.push(c)`: append to the last chunk of the
owner file. -/
def pushChange (st : PState) (c : DiffChange) : PState :=
  match st.chunkOwner with
  | none => st
  | some j =>
    { st with files := updateAt st.files j (fun pf =>
        { pf with chunks := updateLast pf.chunks (fun ch =>
            { ch with changes := ch.changes ++ [c] }) }) }

/-- JS `array.split(sep)` on characters (keeps empty segments). -/
def jsSplitChar (sep : Char) : List Char → List (List Char)
  | [] => [[]]
  | c :: rest =>
    if c = sep then [] :: jsSplitChar sep rest
    else
      match jsSplitChar sep rest with
      | [] => [[c]]
      | h :: t => (c :: h) :: t

/-! ### The line handlers (diff-parser.ts:334-529) -/

/-- `normal` (diff-parser.ts:334-346). -/
def normalHandler (line : String) (st : PState) : PState :=
  match st.chunkOwner, st.currentFileChanges with
  | some _, some fc =>
    let c : DiffChange :=
      { type := "normal", ln1 := some st.deletedLineCounter,
        ln2 := some st.addedLineCounter, content := line.drop 1 }
    let st1 := pushChange st c
    { st1 with
      deletedLineCounter := st.deletedLineCounter + 1,
      addedLineCounter := st.addedLineCounter + 1,
      currentFileChanges := some ⟨fc.oldLines - 1, fc.newLines - 1⟩ }
  | _, _ => st

/-- `del` (diff-parser.ts:452-463). -/
def delHandler (line : String) (st : PState) : PState :=
  match st.chunkOwner, st.files, st.currentFileChanges with
  | some _, _ :: _, some fc =>
    let c : DiffChange :=
      { type := "del", ln := some st.deletedLineCounter,
        content := line.drop 1 }
    let st1 := pushChange st c
    let st2 :=
      { st1 with files := updateLast st1.files (fun pf =>
          { pf with deletions := pf.deletions + 1 }) }
    { st2 with
      deletedLineCounter := st.deletedLineCounter + 1,
      currentFileChanges := some ⟨fc.oldLines - 1, fc.newLines⟩ }
  | _, _, _ => st

/-- `add` (diff-parser.ts:465-476). -/
def addHandler (line : String) (st : PState) : PState :=
  match st.chunkOwner, st.files, st.currentFileChanges with
  | some _, _ :: _, some fc =>
    let c : DiffChange :=
      { type := "add", ln := some st.addedLineCounter,
        content := line.drop 1 }
    let st1 := pushChange st c
    let st2 :=
      { st1 with files := updateLast st1.files (fun pf =>
          { pf with additions := pf.additions + 1 }) }
    { st2 with
      addedLineCounter := st.addedLineCounter + 1,
      currentFileChanges := some ⟨fc.oldLines, fc.newLines - 1⟩ }
  | _, _, _ => st

/-- `eof` (diff-parser.ts:478-492): appends a copy of the most recent
change carrying the marker text; budgets are NOT decremented.  The inner
`none` branches are unreachable (the owner index is always valid and owns
a chunk with the guarded shape) but mirror the JS guards defensively. -/
def eofHandler (line : String) (st : PState) : PState :=
  match st.chunkOwner with
  | none => st
  | some j =>
    match st.files[j]? with
    | none => st
    | some pf =>
      match pf.chunks.getLast? with
      | none => st
      | some ch =>
        match ch.changes.getLast? with
        | none => st
        | some prev =>
          let c : DiffChange :=
            { type := prev.type, ln1 := prev.ln1, ln2 := prev.ln2,
              ln := prev.ln, content := line }
          pushChange st c

/-- `start` (diff-parser.ts:348-360). -/
def startHandler (line : String) (st : PState) : PState :=
  let names := (parseFiles line).getD []
  let pf : ParsedFile :=
    { chunks := [], deletions := 0, additions := 0,
      fromPath := names.getD 0 "", toPath := names.getD 1 "" }
  { st with files := st.files ++ [pf] }

/-- `restart` (diff-parser.ts:362-366). -/
def restartHandler (st : PState) : PState :=
  match st.files.getLast? with
  | none => startHandler "" st
  | some pf => if pf.chunks.length ≠ 0 then startHandler "" st else st

/-- `newFile` (diff-parser.ts:368-375). -/
def newFileHandler (m1 : String) (st : PState) : PState :=
  let st := restartHandler st
  if st.files.isEmpty then st
  else
    { st with files := updateLast st.files (fun pf =>
        { pf with isNewFile := true, newMode := some m1,
                  fromPath := "/dev/null" }) }

/-- `deletedFile` (diff-parser.ts:377-384). -/
def deletedFileHandler (m1 : String) (st : PState) : PState :=
  let st := restartHandler st
  if st.files.isEmpty then st
  else
    { st with files := updateLast st.files (fun pf =>
        { pf with isDeletedFile := true, oldMode := some m1,
                  toPath := "/dev/null" }) }

/-- `oldMode` (diff-parser.ts:386-391). -/
def oldModeHandler (m1 : String) (st : PState) : PState :=
  let st := restartHandler st
  if st.files.isEmpty then st
  else
    { st with files := updateLast st.files (fun pf =>
        { pf with oldMode := some m1 }) }

/-- `newMode` (diff-parser.ts:393-398). -/
def newModeHandler (m1 : String) (st : PState) : PState :=
  let st := restartHandler st
  if st.files.isEmpty then st
  else
    { st with files := updateLast st.files (fun pf =>
        { pf with newMode := some m1 }) }

/-- `index` (diff-parser.ts:400-408): `match[1]` is the whitespace+digits
group, truthy exactly when present. -/
def indexHandler (line : String) (capture : Option String)
    (st : PState) : PState :=
  let st := restartHandler st
  if st.files.isEmpty then st
  else
    let parts :=
      ((jsSplitChar ' ' line.data).map (fun l => (⟨l⟩ : String))).drop 1
    { st with files := updateLast st.files (fun pf =>
        match capture with
        | some cap =>
          { pf with index := some parts, oldMode := some (jsTrim cap),
                    newMode := some (jsTrim cap) }
        | none => { pf with index := some parts }) }

/-- `fromFile` (diff-parser.ts:410-415). -/
def fromFileHandler (line : String) (st : PState) : PState :=
  let st := restartHandler st
  if st.files.isEmpty then st
  else
    { st with files := updateLast st.files (fun pf =>
        { pf with fromPath := parseOldOrNewFile line }) }

/-- `toFile` (diff-parser.ts:417-422). -/
def toFileHandler (line : String) (st : PState) : PState :=
  let st := restartHandler st
  if st.files.isEmpty then st
  else
    { st with files := updateLast st.files (fun pf =>
        { pf with toPath := parseOldOrNewFile line }) }

/-- `chunk` (diff-parser.ts:426-450); `toNumOfLines` is
`+(number || 1)`, i.e. 1 when the count capture is absent. -/
def chunkHandler (line : String)
    (caps : Nat × Option Nat × Nat × Option Nat) (st : PState) : PState :=
  let st := if st.files.isEmpty then startHandler line st else st
  if st.files.isEmpty then st
  else
    let oldStart := caps.fst
    let oldNum := caps.snd.fst
    let newStart := caps.snd.snd.fst
    let newNum := caps.snd.snd.snd
    let oldL := oldNum.getD 1
    let newL := newNum.getD 1
    let newChunk : DiffChunk :=
      { content := line, changes := [], oldStart := oldStart,
        oldLines := oldL, newStart := newStart, newLines := newL }
    { st with
      files := updateLast st.files (fun pf =>
        { pf with chunks := pf.chunks ++ [newChunk] }),
      chunkOwner := some (st.files.length - 1),
      deletedLineCounter := (oldStart : Int),
      addedLineCounter := (newStart : Int),
      currentFileChanges := some ⟨(oldL : Int), (newL : Int)⟩ }

/-- `^\s+`: at least one leading whitespace character. -/
def startsWsLine (line : String) : Bool :=
  match line.data with
  | c :: _ => isJsSpace c
  | [] => false

/-- `parseContentLine` (diff-parser.ts:514-529): first matching content
pattern (eof, `^-`, `^\+`, `^\s+`), then close the hunk when both
remaining budgets are exactly zero. -/
def parseContentLine (line : String) (st : PState) : PState :=
  let st1 :=
    if isEofLine line then eofHandler line st
    else if jsStartsWith line "-" then delHandler line st
    else if jsStartsWith line "+" then addHandler line st
    else if startsWsLine line then normalHandler line st
    else st
  match st1.currentFileChanges with
  | some fc =>
    if fc.oldLines = 0 ∧ fc.newLines = 0 then
      { st1 with currentFileChanges := none }
    else st1
  | none => st1

/-- `parseHeaderLine` (diff-parser.ts:531-539): first matching header
pattern, in `schemaHeaders` order. -/
def parseHeaderLine (line : String) (st : PState) : PState :=
  if isDiffLine line then startHandler line st
  else match matchModeLine "new file mode " line with
  | some m => newFileHandler m st
  | none => match matchModeLine "deleted file mode " line with
  | some m => deletedFileHandler m st
  | none => match matchModeLine "old mode " line with
  | some m => oldModeHandler m st
  | none => match matchModeLine "new mode " line with
  | some m => newModeHandler m st
  | none => match matchIndexLine line with
  | some cap => indexHandler line cap st
  | none =>
    if isFromFileLine line then fromFileHandler line st
    else if isToFileLine line then toFileHandler line st
    else match matchChunkHeader line with
    | some caps => chunkHandler line caps st
    | none => if isEofLine line then eofHandler line st else st

/-- `parseLine` (diff-parser.ts:541-547). -/
def parseLine (st : PState) (line : String) : PState :=
  if st.currentFileChanges.isSome then parseContentLine line st
  else parseHeaderLine line st

/-- JS `input.split("\n")`. -/
def jsSplitNl (s : String) : List String :=
  (jsSplitChar '\n' s.data).map (fun l => ⟨l⟩)

/-- `parseDiff` (diff-parser.ts:320-554).  The whitespace test models
`/^\s+$/` (non-empty, all `\s`); the `lines.length === 0` test is kept
although `split` never returns an empty array. -/
def parseDiff (input : String) : List ParsedFile :=
  if input = "" then []
  else if input.data.all isJsSpace then []
  else
    let lines := jsSplitNl input
    if lines.length = 0 then []
    else (lines.foldl parseLine initPState).files

/-! ### Abstract valid diffs (generator for the round-trip property)

A "valid unified-diff text" is modeled as the rendering of an abstract
diff: a list of files, each with a `diff --git` header line and hunks
whose `@@` headers carry counts consistent with their bodies.  These
definitions are specification-side: they render TO the concrete text the
parser consumes. -/

def digitChar (n : Nat) : Char :=
  match n with
  | 0 => '0' | 1 => '1' | 2 => '2' | 3 => '3' | 4 => '4'
  | 5 => '5' | 6 => '6' | 7 => '7' | 8 => '8' | _ => '9'

/-- Decimal rendering, structurally recursive on a fuel that bounds the
digit count (`n` itself suffices). -/
def natToCharsAux : Nat → Nat → List Char → List Char
  | 0, _, acc => acc
  | fuel + 1, n, acc =>
    if n < 10 then digitChar n :: acc
    else natToCharsAux fuel (n / 10) (digitChar (n % 10) :: acc)

def natToChars (n : Nat) : List Char := natToCharsAux (n + 1) n []

def natStr (n : Nat) : String := ⟨natToChars n⟩

inductive GenKind where
  | del
  | add
  | ctx
  deriving DecidableEq, Repr

structure GenLine where
  kind : GenKind
  text : String
  deriving DecidableEq, Repr

structure GenHunk where
  oldStart : Nat
  newStart : Nat
  body : List GenLine
  deriving DecidableEq, Repr

structure GenFile where
  path : String
  hunks : List GenHunk
  deriving DecidableEq, Repr

/-- Old-side line count of a hunk body (deletions + context). -/
def oldCount (body : List GenLine) : Nat :=
  body.countP (fun g => g.kind = GenKind.del ∨ g.kind = GenKind.ctx)

/-- New-side line count of a hunk body (additions + context). -/
def newCount (body : List GenLine) : Nat :=
  body.countP (fun g => g.kind = GenKind.add ∨ g.kind = GenKind.ctx)

def countDel (body : List GenLine) : Nat :=
  body.countP (fun g => g.kind = GenKind.del)

def countAdd (body : List GenLine) : Nat :=
  body.countP (fun g => g.kind = GenKind.add)

def renderGenLine (g : GenLine) : String :=
  match g.kind with
  | GenKind.del => "-" ++ g.text
  | GenKind.add => "+" ++ g.text
  | GenKind.ctx => " " ++ g.text

def renderHunkHeader (h : GenHunk) : String :=
  "@@ -" ++ natStr h.oldStart ++ "," ++ natStr (oldCount h.body) ++
    " +" ++ natStr h.newStart ++ "," ++ natStr (newCount h.body) ++ " @@"

def renderHunk (h : GenHunk) : List String :=
  renderHunkHeader h :: h.body.map renderGenLine

def renderFile (f : GenFile) : List String :=
  ("diff --git a/" ++ f.path ++ " b/" ++ f.path) ::
    (f.hunks.map renderHunk).flatten

def renderLines (fs : List GenFile) : List String :=
  (fs.map renderFile).flatten

/-- `"\n"`-joining (the inverse of the parser's line split). -/
def joinNl : List String → String
  | [] => ""
  | [x] => x
  | x :: xs => x ++ "\n" ++ joinNl xs

def renderDiff (fs : List GenFile) : String := joinNl (renderLines fs)

/-- Well-formedness of the generator input: line texts and paths carry no
newline, and every hunk has a non-empty body (the unified format has no
empty hunks). -/
def genLineOk (g : GenLine) : Prop := '\n' ∉ g.text.data

def genHunkOk (h : GenHunk) : Prop :=
  h.body ≠ [] ∧ ∀ g ∈ h.body, genLineOk g

def genFileOk (f : GenFile) : Prop :=
  ('\n' ∉ f.path.data) ∧ ∀ h ∈ f.hunks, genHunkOk h

def genDiffOk (fs : List GenFile) : Prop := ∀ f ∈ fs, genFileOk f

/-- The change list the parser builds for a rendered hunk body, starting
from the given line counters. -/
def bodyChanges : Int → Int → List GenLine → List DiffChange
  | _, _, [] => []
  | dlc, alc, g :: rest =>
    match g.kind with
    | GenKind.del =>
      { type := "del", ln := some dlc, content := g.text } ::
        bodyChanges (dlc + 1) alc rest
    | GenKind.add =>
      { type := "add", ln := some alc, content := g.text } ::
        bodyChanges dlc (alc + 1) rest
    | GenKind.ctx =>
      { type := "normal", ln1 := some dlc, ln2 := some alc,
        content := g.text } ::
        bodyChanges (dlc + 1) (alc + 1) rest

/-- The chunk the parser builds for a rendered hunk. -/
def finalChunk (h : GenHunk) : DiffChunk :=
  { content := renderHunkHeader h,
    changes := bodyChanges (h.oldStart : Int) (h.newStart : Int) h.body,
    oldStart := h.oldStart, oldLines := oldCount h.body,
    newStart := h.newStart, newLines := newCount h.body }

/-- The file record `start` pushes for a given line. -/
def freshParsedFile (line : String) : ParsedFile :=
  { chunks := [], deletions := 0, additions := 0,
    fromPath := ((parseFiles line).getD []).getD 0 "",
    toPath := ((parseFiles line).getD []).getD 1 "" }

/-- Old-side changes of a parsed chunk: deletions + context. -/
def countOldChanges (changes : List DiffChange) : Nat :=
  changes.countP (fun c => c.type = "del" ∨ c.type = "normal")

/-- New-side changes of a parsed chunk: additions + context. -/
def countNewChanges (changes : List DiffChange) : Nat :=
  changes.countP (fun c => c.type = "add" ∨ c.type = "normal")

/-- Round-trip line accounting for one parsed file. -/
def AccountOk (pf : ParsedFile) : Prop :=
  ∀ ch ∈ pf.chunks,
    ch.oldLines = countOldChanges ch.changes ∧
    ch.newLines = countNewChanges ch.changes

/-! =====================================================================
    THEOREMS
    ===================================================================== -/

theorem jsFindIndex_ge_neg_one (p : α → Bool) (l : List α) :
    -1 ≤ jsFindIndex p l := by
  induction l with
  | nil => simp [jsFindIndex]
  | cons x xs ih =>
    simp only [jsFindIndex]
    split
    · omega
    · split
      · omega
      · omega

theorem jsFindIndex_eq_neg_one_iff (p : α → Bool) (l : List α) :
    jsFindIndex p l = -1 ↔ ∀ x ∈ l, p x = false := by
  induction l with
  | nil => simp [jsFindIndex]
  | cons x xs ih =>
    by_cases hpx : p x
    · simp [jsFindIndex, hpx]
    · by_cases h2 : jsFindIndex p xs = -1
      · simp only [jsFindIndex, if_neg hpx, if_pos h2, true_iff]
        intro a ha
        rcases List.mem_cons.mp ha with rfl | ha
        · simpa using hpx
        · exact ih.mp h2 a ha
      · constructor
        · intro h
          exfalso
          simp only [jsFindIndex, if_neg hpx, if_neg h2] at h
          have := jsFindIndex_ge_neg_one p xs
          omega
        · intro h
          exact absurd (ih.mpr fun y hy => h y (List.mem_cons_of_mem _ hy)) h2

theorem jsFindIndex_spec (p : α → Bool) (l : List α)
    (h : jsFindIndex p l ≠ -1) :
    ∃ n : ℕ, jsFindIndex p l = n ∧ (∃ x, l[n]? = some x ∧ p x = true) ∧
      ∀ j < n, ∀ y, l[j]? = some y → p y = false := by
  induction l with
  | nil => simp [jsFindIndex] at h
  | cons x xs ih =>
    by_cases hpx : p x
    · exact ⟨0, by simp [jsFindIndex, hpx], ⟨x, by simp, hpx⟩, by omega⟩
    · have hneg : jsFindIndex p xs ≠ -1 := by
        intro h2
        simp [jsFindIndex, hpx, h2] at h
      obtain ⟨n, hn, ⟨y, hy, hpy⟩, hmin⟩ := ih hneg
      refine ⟨n + 1, ?_, ⟨y, by simpa using hy, hpy⟩, ?_⟩
      · have h1 : jsFindIndex p (x :: xs) = jsFindIndex p xs + 1 := by
          simp only [jsFindIndex, if_neg hpx, if_neg hneg]
        rw [h1, hn]
        push_cast
        ring
      · intro j hj z hz
        cases j with
        | zero =>
          simp only [List.getElem?_cons_zero, Option.some_inj] at hz
          subst hz
          simpa using hpx
        | succ j => exact hmin j (by omega) z (by simpa using hz)

theorem dropWhile_head_not (p : α → Bool) (l : List α) (c : α)
    (h : (l.dropWhile p).head? = some c) : p c = false := by
  induction l with
  | nil => simp [List.dropWhile] at h
  | cons x xs ih =>
    by_cases hx : p x
    · rw [List.dropWhile_cons_of_pos hx] at h
      exact ih h
    · rw [List.dropWhile_cons_of_neg hx] at h
      simp only [List.head?_cons, Option.some_inj] at h
      subst h
      simpa using hx

theorem jsTrimChars_append (l : List Char) :
    ∃ t, l.dropWhile isJsSpace = jsTrimChars l ++ t := by
  refine ⟨((l.dropWhile isJsSpace).reverse.takeWhile isJsSpace).reverse, ?_⟩
  unfold jsTrimChars
  conv_lhs => rw [← List.reverse_reverse (l.dropWhile isJsSpace),
    ← List.takeWhile_append_dropWhile (p := isJsSpace)
      (l.dropWhile isJsSpace).reverse]
  rw [List.reverse_append]

theorem jsTrimChars_head_not_space (l : List Char) (c : Char) (rest : List Char)
    (h : jsTrimChars l = c :: rest) : isJsSpace c = false := by
  obtain ⟨t, ht⟩ := jsTrimChars_append l
  apply dropWhile_head_not isJsSpace l
  rw [ht, h]
  rfl

theorem jsStartsWith_plus (s : String) :
    jsStartsWith s "+" =
      match s.data with
      | [] => false
      | c :: _ => decide (c = '+') := by
  have hplus : ("+" : String).data = ['+'] := rfl
  unfold jsStartsWith
  rw [hplus]
  cases s.data with
  | nil => rfl
  | cons c cs => simp [listLeads]

theorem normalizeLine_plus (s : String) :
    jsStartsWith (normalizeLine s) "+" = jsStartsWith (jsTrim s) "+" := by
  rw [jsStartsWith_plus, jsStartsWith_plus]
  show (match (collapseWsAux false (jsTrimChars s.data)) with
        | [] => false | c :: _ => decide (c = '+')) =
       (match jsTrimChars s.data with
        | [] => false | c :: _ => decide (c = '+'))
  cases htrim : jsTrimChars s.data with
  | nil => rfl
  | cons c rest =>
    have hc : isJsSpace c = false := jsTrimChars_head_not_space s.data c rest htrim
    simp [collapseWsAux, hc]

theorem matched_line_plus (cand L : String)
    (hc : jsStartsWith (jsTrim cand) "+" = true)
    (heq : normalizeLine L = normalizeLine cand) :
    jsStartsWith (jsTrim L) "+" = true := by
  rw [← normalizeLine_plus] at hc ⊢
  rw [heq]
  exact hc

theorem foldl_commentStep_mem (filePath : String) (hunk : HunkData) :
    ∀ (rs : List AiReviewResponse) (acc : List ReviewComment)
      (c : ReviewComment),
      c ∈ rs.foldl (commentStep filePath hunk) acc →
      c ∈ acc ∨ ∃ r ∈ rs, emittedFrom filePath hunk r c := by
  intro rs
  induction rs with
  | nil => simp
  | cons r rs ih =>
    intro acc c hc
    rw [List.foldl_cons] at hc
    rcases ih _ c hc with hacc | ⟨r2, hr2, hgood⟩
    · unfold commentStep at hacc
      by_cases hguard :
          (r.lineContent = "" || !jsStartsWith (jsTrim r.lineContent) "+") = true
      · rw [if_pos hguard] at hacc
        exact Or.inl hacc
      · rw [if_neg hguard] at hacc
        simp only [Bool.or_eq_true, Bool.not_eq_true', decide_eq_true_eq,
          not_or, Bool.not_eq_false] at hguard
        by_cases hpos :
            jsFindIndex
              (fun L => normalizeLine L = normalizeLine r.lineContent)
              hunk.lines + 1 = 0
        · rw [if_pos hpos] at hacc
          exact Or.inl hacc
        · rw [if_neg hpos] at hacc
          rcases List.mem_append.mp hacc with h | h
          · exact Or.inl h
          · right
            exact ⟨r, List.mem_cons_self r rs, hguard.1, hguard.2, by omega,
              List.mem_singleton.mp h⟩
    · exact Or.inr ⟨r2, List.mem_cons_of_mem _ hr2, hgood⟩

theorem idx_firstMatch (cand : String) (hunk : HunkData)
    (hidx : jsFindIndex (fun L => normalizeLine L = normalizeLine cand)
        hunk.lines ≠ -1) :
    1 ≤ jsFindIndex (fun L => normalizeLine L = normalizeLine cand)
        hunk.lines + 1 ∧
    jsFindIndex (fun L => normalizeLine L = normalizeLine cand)
        hunk.lines + 1 ≤ hunk.lines.length ∧
    firstMatchPos cand hunk
      (jsFindIndex (fun L => normalizeLine L = normalizeLine cand)
        hunk.lines + 1) := by
  obtain ⟨n, hn, ⟨x, hx, hpx⟩, hmin⟩ := jsFindIndex_spec _ _ hidx
  have hlen : n < hunk.lines.length := by
    rcases List.getElem?_eq_some_iff.mp hx with ⟨hlt, -⟩
    exact hlt
  refine ⟨?_, ?_, n, ?_, ⟨x, hx, by simpa using hpx⟩, ?_⟩
  · rw [hn]
    omega
  · rw [hn]
    omega
  · rw [hn]
  · intro j hj L hL
    have := hmin j hj L hL
    simpa using this

theorem emittedFrom_firstMatch (filePath : String) (hunk : HunkData)
    (r : AiReviewResponse) (c : ReviewComment)
    (h : emittedFrom filePath hunk r c) :
    1 ≤ c.position ∧ c.position ≤ hunk.lines.length ∧
      firstMatchPos r.lineContent hunk c.position := by
  obtain ⟨-, -, hidx, hcomm⟩ := h
  subst hcomm
  exact idx_firstMatch r.lineContent hunk hidx

/-- Analysis of a successful `findFileAndPosition`: the position is a
first-match position inside some hunk of some batch file, in range. -/
theorem findFileAndPosition_spec (batch : BatchReviewRequest)
    (lineContent filePath : String) (pos : Int)
    (h : findFileAndPosition batch lineContent = some (filePath, pos)) :
    ∃ file ∈ batch.files, file.path = filePath ∧
      ∃ hunk ∈ file.originalHunks,
        1 ≤ pos ∧ pos ≤ hunk.lines.length ∧ firstMatchPos lineContent hunk pos := by
  unfold findFileAndPosition at h
  obtain ⟨file, hfile, hf⟩ := List.exists_of_findSome?_eq_some h
  obtain ⟨hunk, hhunk, hh⟩ := List.exists_of_findSome?_eq_some hf
  by_cases hpos :
      jsFindIndex (fun L => normalizeLine L = normalizeLine lineContent)
        hunk.lines + 1 > 0
  · rw [if_pos hpos] at hh
    have hfp : file.path = filePath :=
      congrArg Prod.fst (Option.some_inj.mp hh)
    have hposEq :
        jsFindIndex (fun L => normalizeLine L = normalizeLine lineContent)
          hunk.lines + 1 = pos :=
      congrArg Prod.snd (Option.some_inj.mp hh)
    have hidx :
        jsFindIndex (fun L => normalizeLine L = normalizeLine lineContent)
          hunk.lines ≠ -1 := by omega
    obtain ⟨hp1, hp2, hp3⟩ := idx_firstMatch lineContent hunk hidx
    exact ⟨file, hfile, hfp, hunk, hhunk, hposEq ▸ ⟨hp1, hp2, hp3⟩⟩
  · rw [if_neg hpos] at hh
    exact absurd hh (by simp)


theorem foldl_batchStep_mem (batch : BatchReviewRequest) :
    ∀ (rs : List AiReviewResponse) (acc : List ReviewComment)
      (c : ReviewComment),
      c ∈ rs.foldl (batchCommentStep batch) acc →
      c ∈ acc ∨ ∃ r ∈ rs, batchEmittedFrom batch r c := by
  intro rs
  induction rs with
  | nil => simp
  | cons r rs ih =>
    intro acc c hc
    rw [List.foldl_cons] at hc
    rcases ih _ c hc with hacc | ⟨r2, hr2, hgood⟩
    · unfold batchCommentStep at hacc
      by_cases hguard :
          (r.lineContent = "" || !jsStartsWith (jsTrim r.lineContent) "+") = true
      · rw [if_pos hguard] at hacc
        exact Or.inl hacc
      · rw [if_neg hguard] at hacc
        simp only [Bool.or_eq_true, Bool.not_eq_true', decide_eq_true_eq,
          not_or, Bool.not_eq_false] at hguard
        cases hfind : findFileAndPosition batch r.lineContent with
        | none =>
          rw [hfind] at hacc
          exact Or.inl hacc
        | some fppos =>
          obtain ⟨fp, pos⟩ := fppos
          rw [hfind] at hacc
          rcases List.mem_append.mp hacc with h | h
          · exact Or.inl h
          · exact Or.inr ⟨r, List.mem_cons_self r rs, hguard.1, hguard.2,
              fp, pos, hfind, List.mem_singleton.mp h⟩
    · exact Or.inr ⟨r2, List.mem_cons_of_mem _ hr2, hgood⟩

theorem plusMatch_of_firstMatch (cand : String) (hunk : HunkData) (pos : Int)
    (hplus : jsStartsWith (jsTrim cand) "+" = true)
    (h : firstMatchPos cand hunk pos) : plusMatchLine cand hunk := by
  obtain ⟨n, -, ⟨L, hL, heq⟩, -⟩ := h
  exact ⟨L, List.getElem?_mem hL, matched_line_plus cand L hplus heq, heq⟩

/-- **C10**: every comment emitted by the resolution functions
(`createCommentsFromAiResponses`, and the multi-file resolver
`findFileAndPosition`) carries a position `p` with
`1 ≤ p ≤ hunk.lines.length` for the matched hunk, and `p` is the smallest
1-based index of that hunk whose normalized line equals the normalized
candidate — the first of several identically-normalizing lines wins. -/
theorem c10_resolution_position_invariant :
    (∀ (filePath : String) (hunk : HunkData) (rs : List AiReviewResponse),
       ∀ c ∈ createCommentsFromAiResponses filePath hunk rs,
         1 ≤ c.position ∧ c.position ≤ hunk.lines.length ∧
         ∃ r ∈ rs, firstMatchPos r.lineContent hunk c.position) ∧
    (∀ (batch : BatchReviewRequest) (lineContent filePath : String)
       (pos : Int),
       findFileAndPosition batch lineContent = some (filePath, pos) →
         ∃ file ∈ batch.files, file.path = filePath ∧
           ∃ hunk ∈ file.originalHunks,
             1 ≤ pos ∧ pos ≤ hunk.lines.length ∧
             firstMatchPos lineContent hunk pos) := by
  constructor
  · intro filePath hunk rs c hc
    rcases foldl_commentStep_mem filePath hunk rs [] c hc with h | ⟨r, hr, hgood⟩
    · simp at h
    · obtain ⟨h1, h2, h3⟩ := emittedFrom_firstMatch filePath hunk r c hgood
      exact ⟨h1, h2, r, hr, h3⟩
  · intro batch lineContent filePath pos h
    exact findFileAndPosition_spec batch lineContent filePath pos h

/-- Witness for C10: on the hunk `["+a"]` and candidate `"+a"`, the
single-hunk resolver emits the comment `⟨"c", "f", 1⟩` and position 1 is a
first match. -/
theorem c10_witness :
    1 ≤ (ReviewComment.mk "c" "f" 1).position ∧
    (ReviewComment.mk "c" "f" 1).position ≤
      (HunkData.mk "h" ["+a"]).lines.length ∧
    ∃ r ∈ [AiReviewResponse.mk "+a" "c"],
      firstMatchPos r.lineContent (HunkData.mk "h" ["+a"])
        (ReviewComment.mk "c" "f" 1).position :=
  c10_resolution_position_invariant.1 "f" (HunkData.mk "h" ["+a"])
    [AiReviewResponse.mk "+a" "c"] (ReviewComment.mk "c" "f" 1) (by decide)

/-- **C1, counterexample**: the claim says that a candidate that is absent
(post-normalization) from the hunk's addition lines (the lines starting
with `'+'`) is never anchored.  The hunk `[" +x"]` has no addition line,
yet the candidate `"+x"` (whose trim starts with `'+'`) is anchored at
position 1, because the resolver matches against every hunk line after
trim-and-collapse normalization and the context line `" +x"` normalizes to
`"+x"`. -/
theorem c1_counterexample :
    ¬ (∀ (filePath : String) (hunk : HunkData) (rs : List AiReviewResponse),
        ∀ r ∈ rs,
          normalizeLine r.lineContent ∉
            (hunk.lines.filter (fun L => jsStartsWith L "+")).map normalizeLine →
          createCommentsFromAiResponses filePath hunk rs = []) := by
  intro h
  have h2 := h "f" (HunkData.mk "@@ -1,1 +1,1 @@" [" +x"])
    [AiReviewResponse.mk "+x" "c"] (AiReviewResponse.mk "+x" "c")
    (by decide) (by decide)
  exact absurd h2 (by decide)

/-- **C1, amended**: the resolvers produce an anchored comment only when
the trimmed candidate starts with `'+'`, and a candidate that is not
present — after trim-and-collapse-whitespace normalization — among the
hunk's lines whose TRIMMED text starts with `'+'` (all addition lines,
plus context lines whose own content begins with `'+'`) yields no
comment.  Contrapositively: every emitted comment has a matching hunk line
whose trimmed text starts with `'+'`. -/
theorem c1_amended_plus_anchoring :
    (∀ (filePath : String) (hunk : HunkData) (rs : List AiReviewResponse),
       ∀ c ∈ createCommentsFromAiResponses filePath hunk rs,
         ∃ r ∈ rs, c.body = r.reviewComment ∧
           jsStartsWith (jsTrim r.lineContent) "+" = true ∧
           plusMatchLine r.lineContent hunk) ∧
    (∀ (batch : BatchReviewRequest) (rs : List AiReviewResponse),
       ∀ c ∈ createCommentsFromBatchResponse batch rs,
         ∃ r ∈ rs, jsStartsWith (jsTrim r.lineContent) "+" = true ∧
           ∃ file ∈ batch.files, ∃ hunk ∈ file.originalHunks,
             plusMatchLine r.lineContent hunk) := by
  constructor
  · intro filePath hunk rs c hc
    rcases foldl_commentStep_mem filePath hunk rs [] c hc with h | ⟨r, hr, hgood⟩
    · simp at h
    · obtain ⟨hne, hplus, hidx, hceq⟩ := hgood
      refine ⟨r, hr, by rw [hceq], hplus, ?_⟩
      exact plusMatch_of_firstMatch r.lineContent hunk _ hplus
        (emittedFrom_firstMatch filePath hunk r c
          ⟨hne, hplus, hidx, hceq⟩).2.2
  · intro batch rs c hc
    rcases foldl_batchStep_mem batch rs [] c hc with h | ⟨r, hr, hgood⟩
    · simp at h
    · obtain ⟨hne, hplus, fp, pos, hfind, hceq⟩ := hgood
      obtain ⟨file, hfile, -, hunk, hhunk, -, -, hfm⟩ :=
        findFileAndPosition_spec batch r.lineContent fp pos hfind
      exact ⟨r, hr, hplus, file, hfile, hunk, hhunk,
        plusMatch_of_firstMatch r.lineContent hunk pos hplus hfm⟩

/-- Witness for the amended C1 at a concrete input. -/
theorem c1_witness :
    ∃ r ∈ [AiReviewResponse.mk "+a" "c"],
      (ReviewComment.mk "c" "f" 1).body = r.reviewComment ∧
      jsStartsWith (jsTrim r.lineContent) "+" = true ∧
      plusMatchLine r.lineContent (HunkData.mk "h" ["+a"]) :=
  c1_amended_plus_anchoring.1 "f" (HunkData.mk "h" ["+a"])
    [AiReviewResponse.mk "+a" "c"] (ReviewComment.mk "c" "f" 1) (by decide)

theorem createBatchesGo_flatten (maxB maxT : Nat) :
    ∀ (rest : List FileData) (batches : List BatchReviewRequest)
      (cur : List BatchFileContent) (tok : Nat),
      ((createBatchesGo maxB maxT rest batches cur tok).map
          BatchReviewRequest.files).flatten =
        (batches.map BatchReviewRequest.files).flatten ++ cur ++
          (rest.filter eligibleFile).map mkBatchUnit := by
  intro rest
  induction rest with
  | nil =>
    intro batches cur tok
    simp only [createBatchesGo]
    by_cases h : cur.length > 0
    · rw [if_pos h]
      simp
    · have hnil : cur = [] := List.length_eq_zero.mp (by omega)
      rw [if_neg h]
      simp [hnil]
  | cons f rest ih =>
    intro batches cur tok
    simp only [createBatchesGo]
    by_cases he : eligibleFile f
    · rw [if_pos he]
      by_cases hflush :
          (tok + (mkBatchUnit f).estimatedTokens > maxT ∨
            cur.length ≥ maxB) ∧ cur.length > 0
      · rw [if_pos hflush, ih]
        simp [he]
      · rw [if_neg hflush, ih]
        simp [he]
    · rw [if_neg he, ih]
      simp [he]

theorem createBatchesGo_tokenCap (maxB maxT : Nat) :
    ∀ (rest : List FileData) (batches : List BatchReviewRequest)
      (cur : List BatchFileContent) (tok : Nat),
      (∀ b ∈ batches,
        (2 ≤ b.files.length → b.totalEstimatedTokens ≤ maxT) ∧
        (maxT < b.totalEstimatedTokens → b.files.length = 1) ∧
        b.totalEstimatedTokens =
          (b.files.map BatchFileContent.estimatedTokens).sum ∧
        b.files ≠ []) →
      (2 ≤ cur.length → tok ≤ maxT) →
      tok = (cur.map BatchFileContent.estimatedTokens).sum →
      ∀ b ∈ createBatchesGo maxB maxT rest batches cur tok,
        (2 ≤ b.files.length → b.totalEstimatedTokens ≤ maxT) ∧
        (maxT < b.totalEstimatedTokens → b.files.length = 1) ∧
        b.totalEstimatedTokens =
          (b.files.map BatchFileContent.estimatedTokens).sum ∧
        b.files ≠ [] := by
  intro rest
  induction rest with
  | nil =>
    intro batches cur tok hbat hcur hsum b hb
    simp only [createBatchesGo] at hb
    by_cases h : cur.length > 0
    · rw [if_pos h] at hb
      rcases List.mem_append.mp hb with hmem | hmem
      · exact hbat b hmem
      · have hbeq := List.mem_singleton.mp hmem
        subst hbeq
        refine ⟨hcur, ?_, hsum, ?_⟩
        · show maxT < tok → cur.length = 1
          intro hgt
          by_cases h2 : 2 ≤ cur.length
          · exact absurd (hcur h2) (by omega)
          · omega
        · show cur ≠ []
          intro hnil
          rw [hnil] at h
          simp at h
    · rw [if_neg h] at hb
      exact hbat b hb
  | cons f rest ih =>
    intro batches cur tok hbat hcur hsum b hb
    simp only [createBatchesGo] at hb
    by_cases he : eligibleFile f
    · rw [if_pos he] at hb
      by_cases hflush :
          (tok + (mkBatchUnit f).estimatedTokens > maxT ∨
            cur.length ≥ maxB) ∧ cur.length > 0
      · rw [if_pos hflush] at hb
        refine ih _ _ _ ?_ ?_ ?_ b hb
        · intro b2 hb2
          rcases List.mem_append.mp hb2 with hmem | hmem
          · exact hbat b2 hmem
          · have hbeq := List.mem_singleton.mp hmem
            subst hbeq
            refine ⟨hcur, ?_, hsum, ?_⟩
            · show maxT < tok → cur.length = 1
              intro hgt
              by_cases h2 : 2 ≤ cur.length
              · exact absurd (hcur h2) (by omega)
              · omega
            · show cur ≠ []
              intro hnil
              rw [hnil] at hflush
              simp at hflush
        · intro h2
          simp at h2
        · simp
      · rw [if_neg hflush] at hb
        refine ih _ _ _ hbat ?_ ?_ b hb
        · intro h2
          rw [List.length_append] at h2
          simp only [List.length_singleton] at h2
          have hlen : 1 ≤ cur.length := by omega
          have : ¬ (tok + (mkBatchUnit f).estimatedTokens > maxT ∨
              cur.length ≥ maxB) := fun hor => hflush ⟨hor, by omega⟩
          omega
        · rw [List.map_append, List.sum_append]
          simp [hsum]
    · rw [if_neg he] at hb
      exact ih _ _ _ hbat hcur hsum b hb

/-- **C3, counterexample**: `createBatches` silently drops files whose
path is empty or `/dev/null` (deleted files), so the concatenation of the
produced batches is NOT always the input list: for the single deleted file
below it produces no batch at all. -/
theorem c3_counterexample :
    ¬ (∀ (maxB maxT : Nat) (files : List FileData),
        (((createBatches maxB maxT files).map
            BatchReviewRequest.files).flatten.map BatchFileContent.path) =
          files.map FileData.path) := by
  intro h
  have h2 := h 10 12000 [FileData.mk "/dev/null" [] none]
  exact absurd h2 (by decide)

/-- **C3, amended**: concatenating the files of all batches returned by
`createBatches`, in batch order, yields exactly the ELIGIBLE input files
(those with a non-empty path different from "/dev/null"), in input order,
each converted to its batch unit, with no file duplicated or dropped. -/
theorem c3_amended_batching_conservation (maxB maxT : Nat)
    (files : List FileData) :
    ((createBatches maxB maxT files).map BatchReviewRequest.files).flatten =
      (files.filter eligibleFile).map mkBatchUnit := by
  have h := createBatchesGo_flatten maxB maxT files [] [] 0
  simpa [createBatches] using h

/-- **C4**: every batch produced by `createBatches` that holds two or more
files has summed estimated cost at most the cap; a batch whose recorded
total exceeds the cap holds exactly one file; and the recorded total is
the sum of the members' estimates. -/
theorem c4_token_cap (maxB maxT : Nat) (files : List FileData)
    (b : BatchReviewRequest) (hb : b ∈ createBatches maxB maxT files) :
    (2 ≤ b.files.length → b.totalEstimatedTokens ≤ maxT) ∧
    (maxT < b.totalEstimatedTokens → b.files.length = 1) ∧
    b.totalEstimatedTokens =
      (b.files.map BatchFileContent.estimatedTokens).sum ∧
    b.files ≠ [] := by
  refine createBatchesGo_tokenCap maxB maxT files [] [] 0 ?_ ?_ ?_ b hb
  · intro b2 hb2
    simp at hb2
  · intro h2
    simp at h2
  · simp

/-- Witness for C4 at a concrete input (one eligible file, one batch). -/
theorem c4_witness :
    (2 ≤ (BatchReviewRequest.mk
        [mkBatchUnit (FileData.mk "a.ts" [HunkData.mk "h" ["+x"]] none)]
        1).files.length →
      (BatchReviewRequest.mk
        [mkBatchUnit (FileData.mk "a.ts" [HunkData.mk "h" ["+x"]] none)]
        1).totalEstimatedTokens ≤ 12000) ∧
    (12000 < (BatchReviewRequest.mk
        [mkBatchUnit (FileData.mk "a.ts" [HunkData.mk "h" ["+x"]] none)]
        1).totalEstimatedTokens →
      (BatchReviewRequest.mk
        [mkBatchUnit (FileData.mk "a.ts" [HunkData.mk "h" ["+x"]] none)]
        1).files.length = 1) ∧
    (BatchReviewRequest.mk
        [mkBatchUnit (FileData.mk "a.ts" [HunkData.mk "h" ["+x"]] none)]
        1).totalEstimatedTokens =
      ((BatchReviewRequest.mk
        [mkBatchUnit (FileData.mk "a.ts" [HunkData.mk "h" ["+x"]] none)]
        1).files.map BatchFileContent.estimatedTokens).sum ∧
    (BatchReviewRequest.mk
        [mkBatchUnit (FileData.mk "a.ts" [HunkData.mk "h" ["+x"]] none)]
        1).files ≠ [] :=
  c4_token_cap 10 12000 [FileData.mk "a.ts" [HunkData.mk "h" ["+x"]] none]
    (BatchReviewRequest.mk
      [mkBatchUnit (FileData.mk "a.ts" [HunkData.mk "h" ["+x"]] none)] 1)
    (by decide)

theorem jsFindIndex_lt_length (p : α → Bool) (l : List α) :
    jsFindIndex p l < (l.length : Int) := by
  induction l with
  | nil => simp [jsFindIndex]
  | cons x xs ih =>
    simp only [jsFindIndex, List.length_cons]
    by_cases hpx : p x
    · rw [if_pos hpx]
      push_cast
      omega
    · rw [if_neg hpx]
      by_cases h2 : jsFindIndex p xs = -1
      · rw [if_pos h2]
        push_cast
        omega
      · rw [if_neg h2]
        push_cast
        omega

theorem modelHierarchy_eq :
    modelHierarchy =
      ["gemini-2.0-flash-lite", "gemini-2.5-flash-lite", "gemini-2.0-flash",
       "gemini-2.5-flash", "gemini-2.5-pro"] := by decide

theorem derankModel_false (s : InvokerState)
    (h : (derankModel s).fst = false) : (derankModel s).snd = s := by
  unfold derankModel at h ⊢
  cases hnext : getNextLowerModel s.currentModelName with
  | none => rfl
  | some m =>
    rw [hnext] at h
    simp at h

theorem derankModel_true (s : InvokerState)
    (h : (derankModel s).fst = true) :
    hierPos (derankModel s).snd.currentModelName =
      hierPos s.currentModelName + 1 ∧
    (derankModel s).snd.rateLimitDelay =
      rateLimitDelayFor (derankModel s).snd.currentModelName := by
  unfold derankModel at h ⊢
  cases hnext : getNextLowerModel s.currentModelName with
  | none =>
    rw [hnext] at h
    simp at h
  | some m =>
    refine ⟨?_, rfl⟩
    show hierPos m = hierPos s.currentModelName + 1
    unfold getNextLowerModel at hnext
    by_cases hguard : jsIndexOf modelHierarchy s.currentModelName = -1 ∨
        jsIndexOf modelHierarchy s.currentModelName =
          (modelHierarchy.length : Int) - 1
    · rw [if_pos hguard] at hnext
      exact absurd hnext (by simp)
    · rw [if_neg hguard] at hnext
      push_neg at hguard
      have hge : -1 ≤ jsIndexOf modelHierarchy s.currentModelName :=
        jsFindIndex_ge_neg_one _ _
      have hlt : jsIndexOf modelHierarchy s.currentModelName <
          (modelHierarchy.length : Int) :=
        jsFindIndex_lt_length _ _
      have hlen : modelHierarchy.length = 5 := by decide
      rw [hlen] at hlt hguard
      show hierPos m = jsIndexOf modelHierarchy s.currentModelName + 1
      have hcases : jsIndexOf modelHierarchy s.currentModelName = 0 ∨
          jsIndexOf modelHierarchy s.currentModelName = 1 ∨
          jsIndexOf modelHierarchy s.currentModelName = 2 ∨
          jsIndexOf modelHierarchy s.currentModelName = 3 := by
        omega
      rcases hcases with h0 | h0 | h0 | h0 <;>
        (rw [h0] at hnext ⊢
         rw [modelHierarchy_eq] at hnext
         simp at hnext
         subst hnext
         decide)

theorem getAiResponseGo_models (parseJson : String → Option Json)
    (oracle : Nat → CallOutcome) :
    ∀ (fuel retryCount : Nat) (s : InvokerState),
      List.Chain' (fun a b => hierPos a ≤ hierPos b)
        (getAiResponseGo parseJson oracle fuel retryCount s).modelsUsed ∧
      (getAiResponseGo parseJson oracle fuel retryCount s).modelsUsed.head? =
        some s.currentModelName ∧
      (getAiResponseGo parseJson oracle fuel retryCount s).modelsUsed.getLast? =
        some (getAiResponseGo parseJson oracle fuel
          retryCount s).state.currentModelName := by
  intro fuel
  induction fuel with
  | zero =>
    intro rc s
    exact ⟨List.chain'_singleton _, rfl, rfl⟩
  | succ fuel ih =>
    intro rc s
    cases horacle : oracle rc with
    | ok t =>
      simp only [getAiResponseGo, horacle]
      exact ⟨List.chain'_singleton _, rfl, rfl⟩
    | err status =>
      simp only [getAiResponseGo, horacle]
      by_cases h429 : status = some 429
      · rw [if_pos h429]
        by_cases hrc : rc < maxRetries
        · rw [if_pos hrc]
          by_cases hder : rc = 0 ∧ (derankModel s).fst = true
          · rw [if_pos hder]
            obtain ⟨hch, hhd, hlast⟩ := ih (rc + 1) (derankModel s).snd
            refine ⟨?_, rfl, ?_⟩
            · refine List.chain'_cons'.mpr ⟨?_, hch⟩
              intro y hy
              rw [hhd] at hy
              have hy2 : (derankModel s).snd.currentModelName = y := by
                simpa using hy
              rw [← hy2]
              have hstep := (derankModel_true s hder.2).1
              omega
            · cases hm : (getAiResponseGo parseJson oracle fuel (rc + 1)
                  (derankModel s).snd).modelsUsed with
              | nil =>
                rw [hm] at hhd
                exact absurd hhd (by simp)
              | cons m0 rest =>
                show (s.currentModelName :: m0 :: rest).getLast? = _
                rw [List.getLast?_cons_cons, ← hm]
                exact hlast
          · rw [if_neg hder]
            obtain ⟨hch, hhd, hlast⟩ := ih (rc + 1) s
            refine ⟨?_, rfl, ?_⟩
            · refine List.chain'_cons'.mpr ⟨?_, hch⟩
              intro y hy
              rw [hhd] at hy
              have hy2 : s.currentModelName = y := by simpa using hy
              rw [← hy2]
            · cases hm : (getAiResponseGo parseJson oracle fuel
                  (rc + 1) s).modelsUsed with
              | nil =>
                rw [hm] at hhd
                exact absurd hhd (by simp)
              | cons m0 rest =>
                show (s.currentModelName :: m0 :: rest).getLast? = _
                rw [List.getLast?_cons_cons, ← hm]
                exact hlast
        · rw [if_neg hrc]
          exact ⟨List.chain'_singleton _, rfl, rfl⟩
      · rw [if_neg h429]
        exact ⟨List.chain'_singleton _, rfl, rfl⟩

theorem runRequests_spec (parseJson : String → Option Json) :
    ∀ (oracles : List (Nat → CallOutcome)) (s : InvokerState),
      List.Chain' (fun a b => hierPos a ≤ hierPos b)
        (runRequests parseJson oracles s).snd ∧
      (runRequests parseJson oracles s).snd.head?.getD s.currentModelName =
        s.currentModelName ∧
      (runRequests parseJson oracles s).snd.getLast?.getD s.currentModelName =
        (runRequests parseJson oracles s).fst.currentModelName := by
  intro oracles
  induction oracles with
  | nil => exact fun s => ⟨List.chain'_nil, rfl, rfl⟩
  | cons oracle rest ih =>
    intro s
    obtain ⟨hch1, hhd1, hlast1⟩ :=
      getAiResponseGo_models parseJson oracle (maxRetries + 1) 0 s
    obtain ⟨hch2, hhd2, hlast2⟩ :=
      ih (getAiResponseGo parseJson oracle (maxRetries + 1) 0 s).state
    simp only [runRequests, getAiResponse]
    refine ⟨?_, ?_, ?_⟩
    · refine List.Chain'.append hch1 hch2 ?_
      intro x hx y hy
      have hx2 : (getAiResponseGo parseJson oracle (maxRetries + 1) 0
          s).state.currentModelName = x := by
        rw [hlast1] at hx
        simpa using hx
      rw [← hx2]
      cases hh : (runRequests parseJson rest
          (getAiResponseGo parseJson oracle
            (maxRetries + 1) 0 s).state).snd.head? with
      | none =>
        rw [hh] at hy
        simp at hy
      | some z =>
        rw [hh] at hy
        rw [hh] at hhd2
        simp only [Option.getD_some] at hhd2
        have hyz : z = y := by simpa using hy
        rw [← hyz, hhd2]
    · rw [List.head?_append]
      cases hm : (getAiResponseGo parseJson oracle
          (maxRetries + 1) 0 s).modelsUsed with
      | nil =>
        rw [hm] at hhd1
        exact absurd hhd1 (by simp)
      | cons m0 rest2 =>
        rw [hm] at hhd1
        simp only [List.head?_cons, Option.some_inj] at hhd1
        simp [hhd1]
    · rw [List.getLast?_append]
      cases hr : (runRequests parseJson rest
          (getAiResponseGo parseJson oracle
            (maxRetries + 1) 0 s).state).snd with
      | nil =>
        rw [hr] at hlast2
        simp only [List.getLast?_nil, Option.getD_none] at hlast2
        simp only [List.getLast?_nil, Option.none_or]
        rw [hlast1]
        simpa using hlast2
      | cons y ys =>
        rw [hr] at hlast2
        cases hgl : (y :: ys).getLast? with
        | none => simp [List.getLast?_cons] at hgl
        | some z =>
          rw [hgl] at hlast2
          simp only [Option.getD_some] at hlast2
          simp [hgl, hlast2]

/-- **C5**: the model hierarchy is rate-limit-ordered (non-increasing
requests-per-minute), a successful derank moves the current model exactly
one position DOWN the hierarchy while a failed derank leaves the state
unchanged, within any `getAiResponse` run the sequence of models used per
attempt is monotone (never back up), and across a whole run of sequential
requests the per-attempt model positions form a monotone chain. -/
theorem c5_degradation_monotonicity :
    List.Chain' (fun a b => rpmOf b ≤ rpmOf a) modelHierarchy ∧
    (∀ s : InvokerState,
      ((derankModel s).fst = false → (derankModel s).snd = s) ∧
      ((derankModel s).fst = true →
        hierPos (derankModel s).snd.currentModelName =
          hierPos s.currentModelName + 1)) ∧
    (∀ (parseJson : String → Option Json) (oracle : Nat → CallOutcome)
       (fuel retryCount : Nat) (s : InvokerState),
      List.Chain' (fun a b => hierPos a ≤ hierPos b)
        (getAiResponseGo parseJson oracle fuel retryCount s).modelsUsed ∧
      (getAiResponseGo parseJson oracle fuel
          retryCount s).modelsUsed.head? = some s.currentModelName ∧
      (getAiResponseGo parseJson oracle fuel
          retryCount s).modelsUsed.getLast? =
        some (getAiResponseGo parseJson oracle fuel
          retryCount s).state.currentModelName) ∧
    (∀ (parseJson : String → Option Json)
       (oracles : List (Nat → CallOutcome)) (s : InvokerState),
      List.Chain' (fun a b => hierPos a ≤ hierPos b)
        (runRequests parseJson oracles s).snd) := by
  refine ⟨?_, ?_, ?_, ?_⟩
  · rw [modelHierarchy_eq]
    simp only [List.chain'_cons, List.chain'_singleton, and_true]
    decide
  · intro s
    exact ⟨derankModel_false s, fun h => (derankModel_true s h).1⟩
  · intro parseJson oracle fuel retryCount s
    exact getAiResponseGo_models parseJson oracle fuel retryCount s
  · intro parseJson oracles s
    exact (runRequests_spec parseJson oracles s).1

/-- Witness for C5: a successful derank from the head of the hierarchy
moves exactly one position down; from the tail (`gemini-2.5-pro`, the
default model) deranking fails and the state is unchanged. -/
theorem c5_witness :
    hierPos (derankModel
        (InvokerState.mk "gemini-2.0-flash-lite" 2000)).snd.currentModelName =
      hierPos (InvokerState.mk
        "gemini-2.0-flash-lite" 2000).currentModelName + 1 ∧
    (derankModel (InvokerState.mk "gemini-2.5-pro" 12000)).snd =
      InvokerState.mk "gemini-2.5-pro" 12000 :=
  ⟨(c5_degradation_monotonicity.2.1
      (InvokerState.mk "gemini-2.0-flash-lite" 2000)).2 (by decide),
   (c5_degradation_monotonicity.2.1
      (InvokerState.mk "gemini-2.5-pro" 12000)).1 (by decide)⟩

/-- **C6, counterexample**: the claim says the derank retry does not
consume a slot of the bounded retry budget, i.e. after a first-attempt 429
with a successful derank, the full budget of `maxRetries` backoff retries
would remain.  In the code the derank retry itself increments
`retryCount`, so under persistent 429s only `maxRetries - 1 = 2` backoff
waits happen (`[2000, 4000]`), not `maxRetries = 3`. -/
theorem c6_counterexample :
    ¬ (∀ (parseJson : String → Option Json) (oracle : Nat → CallOutcome)
        (s : InvokerState),
        (derankModel s).fst = true →
        (∀ k, oracle k = CallOutcome.err (some 429)) →
        (getAiResponse parseJson oracle s).backoffs.length = maxRetries) := by
  intro h
  have h2 := h (fun _ => none) (fun _ => CallOutcome.err (some 429))
    (InvokerState.mk "gemini-2.0-flash-lite" 2000) (by decide) (fun k => rfl)
  exact absurd h2 (by decide)

/-- **C6, amended**: when the first attempt (`retryCount = 0`) fails with
a 429 and a lower tier exists, the invoker permanently switches to the
next lower tier, recomputes the inter-request interval
(`rateLimitDelayFor`), and retries immediately — no backoff wait is
recorded for this transition — BUT the retry does consume one slot of the
shared bounded retry budget: it proceeds with `retryCount = 1` of
`maxRetries = 3` (remaining budget `maxRetries`), leaving at most two
backoff retries.  All subsequent attempts of the run start from the new
tier's state (and its interval). -/
theorem c6_amended_derank_retry (parseJson : String → Option Json)
    (oracle : Nat → CallOutcome) (s : InvokerState) (m : String)
    (hlow : getNextLowerModel s.currentModelName = some m)
    (h429 : oracle 0 = CallOutcome.err (some 429)) :
    getAiResponse parseJson oracle s =
      ⟨(getAiResponseGo parseJson oracle maxRetries 1
          (InvokerState.mk m (rateLimitDelayFor m))).reviews,
       (getAiResponseGo parseJson oracle maxRetries 1
          (InvokerState.mk m (rateLimitDelayFor m))).state,
       s.currentModelName ::
         (getAiResponseGo parseJson oracle maxRetries 1
           (InvokerState.mk m (rateLimitDelayFor m))).modelsUsed,
       (getAiResponseGo parseJson oracle maxRetries 1
          (InvokerState.mk m (rateLimitDelayFor m))).backoffs⟩ := by
  have hder : derankModel s =
      (true, InvokerState.mk m (rateLimitDelayFor m)) := by
    unfold derankModel
    rw [hlow]
  unfold getAiResponse
  conv_lhs => rw [getAiResponseGo.eq_def]
  simp only [h429]
  rw [if_pos trivial, if_pos (by decide : 0 < maxRetries),
    if_pos ⟨trivial, by rw [hder]⟩, hder]

/-- Witness for the amended C6: concrete first-attempt 429 from the top
tier; the invoker switches to `gemini-2.5-flash-lite` with its recomputed
interval and retries at `retryCount = 1` with no backoff entry. -/
theorem c6_witness :
    getAiResponse (fun _ => none)
        (fun k => if k = 0 then CallOutcome.err (some 429)
                  else CallOutcome.ok none)
        (InvokerState.mk "gemini-2.0-flash-lite" 2000) =
      ⟨(getAiResponseGo (fun _ => none)
          (fun k => if k = 0 then CallOutcome.err (some 429)
                    else CallOutcome.ok none) maxRetries 1
          (InvokerState.mk "gemini-2.5-flash-lite"
            (rateLimitDelayFor "gemini-2.5-flash-lite"))).reviews,
       (getAiResponseGo (fun _ => none)
          (fun k => if k = 0 then CallOutcome.err (some 429)
                    else CallOutcome.ok none) maxRetries 1
          (InvokerState.mk "gemini-2.5-flash-lite"
            (rateLimitDelayFor "gemini-2.5-flash-lite"))).state,
       (InvokerState.mk "gemini-2.0-flash-lite" 2000).currentModelName ::
         (getAiResponseGo (fun _ => none)
            (fun k => if k = 0 then CallOutcome.err (some 429)
                      else CallOutcome.ok none) maxRetries 1
            (InvokerState.mk "gemini-2.5-flash-lite"
              (rateLimitDelayFor "gemini-2.5-flash-lite"))).modelsUsed,
       (getAiResponseGo (fun _ => none)
          (fun k => if k = 0 then CallOutcome.err (some 429)
                    else CallOutcome.ok none) maxRetries 1
          (InvokerState.mk "gemini-2.5-flash-lite"
            (rateLimitDelayFor "gemini-2.5-flash-lite"))).backoffs⟩ :=
  c6_amended_derank_retry (fun _ => none)
    (fun k => if k = 0 then CallOutcome.err (some 429)
              else CallOutcome.ok none)
    (InvokerState.mk "gemini-2.0-flash-lite" 2000)
    "gemini-2.5-flash-lite" (by decide) rfl

theorem processResponseText_all (parseJson : String → Option Json)
    (text : Option String) :
    (processResponseText parseJson text).all
      (fun review => jsTruthyOpt (jsProp review "lineContent") &&
        jsTruthyOpt (jsProp review "reviewComment")) = true := by
  cases text with
  | none => rfl
  | some raw =>
    simp only [processResponseText]
    by_cases h1 : jsTrim raw = ""
    · rw [if_pos h1]
      rfl
    · rw [if_neg h1]
      cases hp : parseJson (cleanedResponseText raw) with
      | none => simp [hp]
      | some data =>
        cases data with
        | null => simp [hp]
        | bool b => simp [hp, jsProp]
        | num n => simp [hp, jsProp]
        | str s => simp [hp, jsProp]
        | arr elems => simp [hp, jsProp]
        | obj fields =>
          cases hq : jsProp (Json.obj fields) "reviews" with
          | none => simp [hp, hq]
          | some v =>
            cases v with
            | null => simp [hp, hq]
            | bool b => simp [hp, hq]
            | num n => simp [hp, hq]
            | str s => simp [hp, hq]
            | obj fields2 => simp [hp, hq]
            | arr reviews =>
              by_cases hnull : reviews.any isJsonNull
              · simp [hp, hq, hnull]
              · simp only [hp, hq]
                rw [if_neg hnull]
                exact List.all_eq_true.mpr
                  (fun review hrev => (List.mem_filter.mp hrev).2)

theorem getAiResponseGo_all (parseJson : String → Option Json)
    (oracle : Nat → CallOutcome) :
    ∀ (fuel retryCount : Nat) (s : InvokerState),
      ((getAiResponseGo parseJson oracle fuel retryCount s).reviews.all
        (fun review => jsTruthyOpt (jsProp review "lineContent") &&
          jsTruthyOpt (jsProp review "reviewComment"))) = true := by
  intro fuel
  induction fuel with
  | zero => intro rc s; rfl
  | succ fuel ih =>
    intro rc s
    conv_lhs => rw [getAiResponseGo.eq_def]
    cases horacle : oracle rc with
    | ok text =>
      simp only [horacle]
      exact processResponseText_all parseJson text
    | err status =>
      simp only [horacle]
      by_cases h429 : status = some 429
      · rw [if_pos h429]
        by_cases hrc : rc < maxRetries
        · rw [if_pos hrc]
          by_cases hder : rc = 0 ∧ (derankModel s).fst = true
          · rw [if_pos hder]
            exact ih (rc + 1) (derankModel s).snd
          · rw [if_neg hder]
            exact ih (rc + 1) s
        · rw [if_neg hrc]
          rfl
      · rw [if_neg h429]
        rfl

theorem getAiResponseGo_all429 (parseJson : String → Option Json)
    (oracle : Nat → CallOutcome)
    (hall : ∀ k, oracle k = CallOutcome.err (some 429)) :
    ∀ (fuel retryCount : Nat) (s : InvokerState),
      (getAiResponseGo parseJson oracle fuel retryCount s).reviews = [] := by
  intro fuel
  induction fuel with
  | zero => intro rc s; rfl
  | succ fuel ih =>
    intro rc s
    conv_lhs => rw [getAiResponseGo.eq_def]
    simp only [hall rc]
    rw [if_pos trivial]
    by_cases hrc : rc < maxRetries
    · rw [if_pos hrc]
      by_cases hder : rc = 0 ∧ (derankModel s).fst = true
      · rw [if_pos hder]
        exact ih (rc + 1) (derankModel s).snd
      · rw [if_neg hder]
        exact ih (rc + 1) s
    · rw [if_neg hrc]

/-- **C7**: `getAiResponse` never throws (it is a total function of the
attempt outcomes) and degrades to an empty result on every failure path:
a non-retryable call failure and exhaustion of the retry cap yield `[]`;
a successful call yields exactly the processed payload, where an
unparsable payload or a payload lacking the `reviews` array yields `[]`
and every surviving review entry has truthy `lineContent` and
`reviewComment` (entries missing either field are discarded before the
resolver). -/
theorem c7_error_containment :
    (∀ (parseJson : String → Option Json) (oracle : Nat → CallOutcome)
       (fuel retryCount : Nat) (s : InvokerState),
      ((getAiResponseGo parseJson oracle fuel retryCount s).reviews.all
        (fun review => jsTruthyOpt (jsProp review "lineContent") &&
          jsTruthyOpt (jsProp review "reviewComment"))) = true) ∧
    (∀ (parseJson : String → Option Json) (oracle : Nat → CallOutcome)
       (s : InvokerState) (status : Option Int),
      oracle 0 = CallOutcome.err status → status ≠ some 429 →
      (getAiResponse parseJson oracle s).reviews = []) ∧
    (∀ (parseJson : String → Option Json) (oracle : Nat → CallOutcome)
       (s : InvokerState),
      (∀ k, oracle k = CallOutcome.err (some 429)) →
      (getAiResponse parseJson oracle s).reviews = []) ∧
    (∀ (parseJson : String → Option Json) (oracle : Nat → CallOutcome)
       (s : InvokerState) (text : Option String),
      oracle 0 = CallOutcome.ok text →
      (getAiResponse parseJson oracle s).reviews =
        processResponseText parseJson text) ∧
    (∀ (parseJson : String → Option Json) (raw : String),
      parseJson (cleanedResponseText raw) = none →
      processResponseText parseJson (some raw) = []) ∧
    (∀ (parseJson : String → Option Json) (raw : String) (data : Json),
      parseJson (cleanedResponseText raw) = some data →
      (∀ reviews, jsProp data "reviews" ≠ some (Json.arr reviews)) →
      processResponseText parseJson (some raw) = []) := by
  refine ⟨?_, ?_, ?_, ?_, ?_, ?_⟩
  · exact getAiResponseGo_all
  · intro parseJson oracle s status horacle hstatus
    unfold getAiResponse
    conv_lhs => rw [getAiResponseGo.eq_def]
    simp only [horacle]
    rw [if_neg hstatus]
  · intro parseJson oracle s hall
    exact getAiResponseGo_all429 parseJson oracle hall (maxRetries + 1) 0 s
  · intro parseJson oracle s text horacle
    unfold getAiResponse
    conv_lhs => rw [getAiResponseGo.eq_def]
    simp only [horacle]
  · intro parseJson raw hparse
    simp only [processResponseText]
    by_cases h1 : jsTrim raw = ""
    · rw [if_pos h1]
    · rw [if_neg h1, hparse]
  · intro parseJson raw data hparse hnoarr
    simp only [processResponseText]
    by_cases h1 : jsTrim raw = ""
    · rw [if_pos h1]
    · rw [if_neg h1, hparse]
      cases data with
      | null => rfl
      | bool b => rfl
      | num n => rfl
      | str s => rfl
      | arr elems => rfl
      | obj fields =>
        cases hq : jsProp (Json.obj fields) "reviews" with
        | none => simp [hq]
        | some v =>
          cases v with
          | null => simp [hq]
          | bool b => simp [hq]
          | num n => simp [hq]
          | str s => simp [hq]
          | obj fields2 => simp [hq]
          | arr reviews => exact absurd hq (hnoarr reviews)

/-- Witness for C7: concrete failure paths each produce the empty result,
and a successful call returns exactly the processed payload. -/
theorem c7_witness :
    (getAiResponse (fun _ => none) (fun _ => CallOutcome.err (some 500))
      (InvokerState.mk "gemini-2.5-pro" 12000)).reviews = [] ∧
    (getAiResponse (fun _ => none) (fun _ => CallOutcome.err (some 429))
      (InvokerState.mk "gemini-2.5-pro" 12000)).reviews = [] ∧
    (getAiResponse (fun _ => none) (fun _ => CallOutcome.ok none)
      (InvokerState.mk "gemini-2.5-pro" 12000)).reviews =
      processResponseText (fun _ => none) none ∧
    processResponseText (fun _ => none) (some "nonsense") = [] ∧
    processResponseText (fun _ => some (Json.obj [])) (some "{}") = [] :=
  ⟨c7_error_containment.2.1 (fun _ => none)
      (fun _ => CallOutcome.err (some 500))
      (InvokerState.mk "gemini-2.5-pro" 12000) (some 500) rfl (by decide),
   c7_error_containment.2.2.1 (fun _ => none)
      (fun _ => CallOutcome.err (some 429))
      (InvokerState.mk "gemini-2.5-pro" 12000) (fun k => rfl),
   c7_error_containment.2.2.2.1 (fun _ => none)
      (fun _ => CallOutcome.ok none)
      (InvokerState.mk "gemini-2.5-pro" 12000) none rfl,
   c7_error_containment.2.2.2.2.1 (fun _ => none) "nonsense" rfl,
   c7_error_containment.2.2.2.2.2 (fun _ => some (Json.obj [])) "{}"
      (Json.obj []) rfl (fun reviews h => by simp [jsProp] at h)⟩

theorem analyzeBatchModeGo_spec
    (reviewBatch : Nat → Except Unit (List AiReviewResponse))
    (processIndiv : List FileData → List ReviewComment) :
    ∀ (batches : List BatchReviewRequest) (i : Nat)
      (acc : List ReviewComment),
      analyzeBatchModeGo reviewBatch processIndiv i batches acc =
        acc ++ contributionsFrom reviewBatch processIndiv i batches := by
  intro batches
  induction batches with
  | nil =>
    intro i acc
    simp [analyzeBatchModeGo, contributionsFrom]
  | cons batch rest ih =>
    intro i acc
    simp only [analyzeBatchModeGo, contributionsFrom, batchContribution]
    cases hrb : reviewBatch i with
    | error e =>
      rw [ih]
      simp
    | ok aiResponses =>
      by_cases hempty : aiResponses.length = 0 ∧ batch.files.length > 0
      · simp [ih, hempty]
      · simp [ih]
        split
        · rfl
        · rfl

/-- **C8**: batch-mode analysis decomposes into per-batch contributions
(so one batch's failure never aborts the run or the other batches); a
thrown batch call, or zero AI responses for a non-empty batch, makes that
batch contribute exactly the per-file fallback over all of its files; and
a batch's contribution depends only on its own call outcome. -/
theorem c8_batch_fallback :
    (∀ (reviewBatch : Nat → Except Unit (List AiReviewResponse))
       (processIndiv : List FileData → List ReviewComment)
       (maxB maxT : Nat) (files : List FileData),
      analyzeBatchMode reviewBatch processIndiv maxB maxT files =
        contributionsFrom reviewBatch processIndiv 0
          (createBatches maxB maxT files)) ∧
    (∀ (reviewBatch : Nat → Except Unit (List AiReviewResponse))
       (processIndiv : List FileData → List ReviewComment)
       (i : Nat) (batch : BatchReviewRequest),
      reviewBatch i = Except.error () →
      batchContribution reviewBatch processIndiv i batch =
        processIndiv (fallbackFiles batch)) ∧
    (∀ (reviewBatch : Nat → Except Unit (List AiReviewResponse))
       (processIndiv : List FileData → List ReviewComment)
       (i : Nat) (batch : BatchReviewRequest)
       (aiResponses : List AiReviewResponse),
      reviewBatch i = Except.ok aiResponses → aiResponses.length = 0 →
      batch.files.length > 0 →
      batchContribution reviewBatch processIndiv i batch =
        processIndiv (fallbackFiles batch)) ∧
    (∀ (reviewBatch reviewBatch2 : Nat → Except Unit (List AiReviewResponse))
       (processIndiv : List FileData → List ReviewComment)
       (i : Nat) (batch : BatchReviewRequest),
      reviewBatch i = reviewBatch2 i →
      batchContribution reviewBatch processIndiv i batch =
        batchContribution reviewBatch2 processIndiv i batch) := by
  refine ⟨?_, ?_, ?_, ?_⟩
  · intro reviewBatch processIndiv maxB maxT files
    unfold analyzeBatchMode
    rw [analyzeBatchModeGo_spec]
    simp
  · intro reviewBatch processIndiv i batch h
    unfold batchContribution
    rw [h]
  · intro reviewBatch processIndiv i batch aiResponses hok hlen hfiles
    unfold batchContribution
    rw [hok]
    show (if aiResponses.length = 0 ∧ batch.files.length > 0 then
        processIndiv (fallbackFiles batch)
      else createCommentsFromBatchResponse batch aiResponses) =
      processIndiv (fallbackFiles batch)
    rw [if_pos ⟨hlen, hfiles⟩]
  · intro reviewBatch reviewBatch2 processIndiv i batch h
    unfold batchContribution
    rw [h]

/-- Witness for C8 at concrete inputs: a thrown batch call and an
empty-response batch both contribute the fallback output. -/
theorem c8_witness :
    batchContribution (fun _ => Except.error ()) (fun _ => []) 0
        (BatchReviewRequest.mk
          [mkBatchUnit (FileData.mk "a.ts" [HunkData.mk "h" ["+x"]] none)] 1) =
      (fun _ => ([] : List ReviewComment))
        (fallbackFiles (BatchReviewRequest.mk
          [mkBatchUnit (FileData.mk "a.ts" [HunkData.mk "h" ["+x"]] none)] 1)) ∧
    batchContribution (fun _ => Except.ok []) (fun _ => []) 0
        (BatchReviewRequest.mk
          [mkBatchUnit (FileData.mk "a.ts" [HunkData.mk "h" ["+x"]] none)] 1) =
      (fun _ => ([] : List ReviewComment))
        (fallbackFiles (BatchReviewRequest.mk
          [mkBatchUnit (FileData.mk "a.ts" [HunkData.mk "h" ["+x"]] none)] 1)) :=
  ⟨c8_batch_fallback.2.1 (fun _ => Except.error ()) (fun _ => []) 0
      (BatchReviewRequest.mk
        [mkBatchUnit (FileData.mk "a.ts" [HunkData.mk "h" ["+x"]] none)] 1) rfl,
   c8_batch_fallback.2.2.1 (fun _ => Except.ok []) (fun _ => []) 0
      (BatchReviewRequest.mk
        [mkBatchUnit (FileData.mk "a.ts" [HunkData.mk "h" ["+x"]] none)] 1)
      [] rfl rfl (by decide)⟩

/-- **C9**: `parseDiff` is a total function of the input string (the
embedding witnesses that the parser never throws and always returns a —
possibly partial — list of parsed files); in particular every empty or
whitespace-only input yields the empty list. -/
theorem c9_parse_never_throws (s : String)
    (h : s.data.all isJsSpace = true) : parseDiff s = [] := by
  unfold parseDiff
  by_cases h0 : s = ""
  · rw [if_pos h0]
  · rw [if_neg h0, if_pos h]

/-- Witness for C9: the empty string and a whitespace-only string. -/
theorem c9_witness :
    parseDiff "" = [] ∧ parseDiff "  \n\t " = [] :=
  ⟨c9_parse_never_throws "" (by decide),
   c9_parse_never_throws "  \n\t " (by decide)⟩

/-! ### Decimal round trip -/

theorem digitChar_isDigit (k : Nat) : isDigitChar (digitChar k) = true := by
  unfold digitChar
  split <;> decide

theorem digitChar_val (k : Nat) (hk : k ≤ 9) :
    (digitChar k).toNat = k + 48 := by
  interval_cases k <;> decide

theorem natToCharsAux_acc :
    ∀ (n fuel : Nat) (acc : List Char), n < fuel →
      natToCharsAux fuel n acc = natToChars n ++ acc := by
  intro n
  induction n using Nat.strong_induction_on with
  | _ n ih =>
    intro fuel acc h
    cases fuel with
    | zero => omega
    | succ fuel =>
      by_cases h10 : n < 10
      · simp [natToCharsAux, natToChars, h10]
      · have hlt : n / 10 < n := by omega
        have hf : n / 10 < fuel := by omega
        rw [show natToCharsAux (fuel + 1) n acc =
            natToCharsAux fuel (n / 10) (digitChar (n % 10) :: acc) by
          simp [natToCharsAux, h10]]
        rw [ih (n / 10) hlt fuel _ hf]
        have hn1 : natToChars n =
            natToCharsAux n (n / 10) [digitChar (n % 10)] := by
          cases hn : n with
          | zero => omega
          | succ m =>
            show natToCharsAux (m + 1 + 1) (m + 1) [] = _
            simp only [natToCharsAux]
            rw [if_neg (by omega)]
        rw [hn1, ih (n / 10) hlt n _ (by omega)]
        simp

theorem natToChars_split (n : Nat) (h10 : ¬ n < 10) :
    natToChars n = natToChars (n / 10) ++ [digitChar (n % 10)] := by
  have h1 : natToChars n = natToCharsAux n (n / 10) [digitChar (n % 10)] := by
    cases n with
    | zero => omega
    | succ m =>
      show natToCharsAux (m + 1 + 1) (m + 1) [] = _
      rw [show natToCharsAux (m + 1 + 1) (m + 1) [] =
          (if m + 1 < 10 then [digitChar (m + 1)]
           else natToCharsAux (m + 1) ((m + 1) / 10)
             [digitChar ((m + 1) % 10)]) from rfl]
      rw [if_neg (by omega)]
  rw [h1, natToCharsAux_acc _ _ _ (by omega)]

theorem natToChars_all_digits (n : Nat) :
    ∀ c ∈ natToChars n, isDigitChar c = true := by
  induction n using Nat.strong_induction_on with
  | _ n ih =>
    by_cases h10 : n < 10
    · intro c hc
      simp [natToChars, natToCharsAux, h10] at hc
      subst hc
      exact digitChar_isDigit n
    · intro c hc
      have hn1 := natToChars_split n h10
      rw [hn1] at hc
      rcases List.mem_append.mp hc with h | h
      · exact ih (n / 10) (by omega) c h
      · rw [List.mem_singleton.mp h]
        exact digitChar_isDigit (n % 10)

theorem natToChars_ne_nil (n : Nat) : natToChars n ≠ [] := by
  by_cases h10 : n < 10
  · simp [natToChars, natToCharsAux, h10]
  · have hn1 := natToChars_split n h10
    rw [hn1]
    simp

theorem digitsToNat_append_one (l : List Char) (c : Char) :
    digitsToNat (l ++ [c]) = 10 * digitsToNat l + (c.toNat - '0'.toNat) := by
  unfold digitsToNat
  rw [List.foldl_append]
  rfl

theorem digitsToNat_natToChars (n : Nat) :
    digitsToNat (natToChars n) = n := by
  induction n using Nat.strong_induction_on with
  | _ n ih =>
    by_cases h10 : n < 10
    · simp only [natToChars, natToCharsAux, if_pos h10]
      show digitsToNat [digitChar n] = n
      unfold digitsToNat
      simp only [List.foldl_cons, List.foldl_nil]
      rw [show (10 * 0 + ((digitChar n).toNat - '0'.toNat)) =
          (digitChar n).toNat - '0'.toNat by omega]
      rw [digitChar_val n (by omega)]
      rfl
    · have hn1 := natToChars_split n h10
      rw [hn1, digitsToNat_append_one, ih (n / 10) (by omega),
        digitChar_val (n % 10) (by omega)]
      have : '0'.toNat = 48 := rfl
      rw [this]
      omega

theorem takeWhile_append_all (p : α → Bool) (l rest : List α)
    (h : ∀ x ∈ l, p x = true) :
    (l ++ rest).takeWhile p = l ++ rest.takeWhile p := by
  induction l with
  | nil => simp
  | cons x xs ih =>
    have hx := h x (List.mem_cons_self x xs)
    simp only [List.cons_append, List.takeWhile_cons, hx, if_true]
    rw [ih (fun y hy => h y (List.mem_cons_of_mem x hy))]

theorem dropWhile_append_all (p : α → Bool) (l rest : List α)
    (h : ∀ x ∈ l, p x = true) :
    (l ++ rest).dropWhile p = rest.dropWhile p := by
  induction l with
  | nil => simp
  | cons x xs ih =>
    have hx := h x (List.mem_cons_self x xs)
    simp only [List.cons_append, List.dropWhile_cons, hx, if_true]
    exact ih (fun y hy => h y (List.mem_cons_of_mem x hy))

theorem takeWhile_not_head (p : α → Bool) (c : α) (rest : List α)
    (h : p c = false) : (c :: rest).takeWhile p = [] := by
  simp [List.takeWhile_cons, h]

theorem dropWhile_not_head (p : α → Bool) (c : α) (rest : List α)
    (h : p c = false) : (c :: rest).dropWhile p = c :: rest := by
  simp [List.dropWhile_cons, h]

theorem natToChars_isEmpty (n : Nat) : (natToChars n).isEmpty = false := by
  cases hh : natToChars n with
  | nil => exact absurd hh (natToChars_ne_nil n)
  | cons x xs => rfl

theorem readDigitSection_two (a b : Nat) (c : Char) (rest : List Char)
    (hc : isDigitChar c = false) :
    readDigitSection (natToChars a ++ ',' :: (natToChars b ++ c :: rest)) =
      some (a, some b, c :: rest) := by
  have ht1 : (natToChars a ++ ',' ::
      (natToChars b ++ c :: rest)).takeWhile isDigitChar = natToChars a := by
    rw [takeWhile_append_all _ _ _ (natToChars_all_digits a),
        takeWhile_not_head _ _ _ (by decide)]
    simp
  have hd1 : (natToChars a ++ ',' ::
      (natToChars b ++ c :: rest)).dropWhile isDigitChar =
      ',' :: (natToChars b ++ c :: rest) := by
    rw [dropWhile_append_all _ _ _ (natToChars_all_digits a),
        dropWhile_not_head _ _ _ (by decide)]
  have ht2 : (natToChars b ++ c :: rest).takeWhile isDigitChar =
      natToChars b := by
    rw [takeWhile_append_all _ _ _ (natToChars_all_digits b),
        takeWhile_not_head _ _ _ hc]
    simp
  have hd2 : (natToChars b ++ c :: rest).dropWhile isDigitChar =
      c :: rest := by
    rw [dropWhile_append_all _ _ _ (natToChars_all_digits b),
        dropWhile_not_head _ _ _ hc]
  simp only [readDigitSection, ht1, hd1, ht2, hd2, natToChars_isEmpty,
    Bool.false_eq_true, if_false, digitsToNat_natToChars]

theorem updateAt_append_last (l : List α) (x : α) (f : α → α) :
    updateAt (l ++ [x]) l.length f = l ++ [f x] := by
  induction l with
  | nil => rfl
  | cons a as ih =>
    simp only [List.cons_append, List.length_cons, updateAt]
    rw [show as.append [x] = as ++ [x] from rfl, ih]

theorem updateLast_append (l : List α) (x : α) (f : α → α) :
    updateLast (l ++ [x]) f = l ++ [f x] := by
  unfold updateLast
  rw [show (l ++ [x]).length - 1 = l.length by simp]
  exact updateAt_append_last l x f

theorem renderHunkHeader_data (h : GenHunk) :
    (renderHunkHeader h).data =
      '@' :: '@' :: ' ' :: '-' ::
        (natToChars h.oldStart ++ ',' ::
          (natToChars (oldCount h.body) ++ ' ' :: '+' ::
            (natToChars h.newStart ++ ',' ::
              (natToChars (newCount h.body) ++ [' ', '@', '@'])))) := by
  simp [renderHunkHeader, natStr, String.data_append]

theorem matchChunkHeader_render (h : GenHunk) :
    matchChunkHeader (renderHunkHeader h) =
      some (h.oldStart, some (oldCount h.body), h.newStart,
        some (newCount h.body)) := by
  have hdata := renderHunkHeader_data h
  simp only [matchChunkHeader, hdata]
  rw [show (' ' :: '-' ::
        (natToChars h.oldStart ++ ',' ::
          (natToChars (oldCount h.body) ++ ' ' :: '+' ::
            (natToChars h.newStart ++ ',' ::
              (natToChars (newCount h.body) ++
                [' ', '@', '@']))))).takeWhile isJsSpace = [' '] by
    simp [List.takeWhile_cons, (by decide : isJsSpace ' ' = true),
      (by decide : isJsSpace '-' = false),
      (by decide : isJsSpace '+' = false)]]
  rw [show (' ' :: '-' ::
        (natToChars h.oldStart ++ ',' ::
          (natToChars (oldCount h.body) ++ ' ' :: '+' ::
            (natToChars h.newStart ++ ',' ::
              (natToChars (newCount h.body) ++
                [' ', '@', '@']))))).dropWhile isJsSpace =
      '-' :: (natToChars h.oldStart ++ ',' ::
          (natToChars (oldCount h.body) ++ ' ' :: '+' ::
            (natToChars h.newStart ++ ',' ::
              (natToChars (newCount h.body) ++ [' ', '@', '@'])))) by
    simp [List.dropWhile_cons, (by decide : isJsSpace ' ' = true),
      (by decide : isJsSpace '-' = false),
      (by decide : isJsSpace '+' = false)]]
  simp only [List.isEmpty_cons, Bool.false_eq_true, if_false]
  rw [readDigitSection_two _ _ _ _ (by decide)]
  simp only []
  rw [show (' ' :: '+' ::
        (natToChars h.newStart ++ ',' ::
          (natToChars (newCount h.body) ++
            [' ', '@', '@']))).takeWhile isJsSpace = [' '] by
    simp [List.takeWhile_cons, (by decide : isJsSpace ' ' = true),
      (by decide : isJsSpace '-' = false),
      (by decide : isJsSpace '+' = false)]]
  rw [show (' ' :: '+' ::
        (natToChars h.newStart ++ ',' ::
          (natToChars (newCount h.body) ++
            [' ', '@', '@']))).dropWhile isJsSpace =
      '+' :: (natToChars h.newStart ++ ',' ::
          (natToChars (newCount h.body) ++ [' ', '@', '@'])) by
    simp [List.dropWhile_cons, (by decide : isJsSpace ' ' = true),
      (by decide : isJsSpace '-' = false),
      (by decide : isJsSpace '+' = false)]]
  simp only [List.isEmpty_cons, Bool.false_eq_true, if_false]
  rw [readDigitSection_two _ _ _ _ (by decide)]
  simp only []
  rw [if_pos (by decide : isJsSpace ' ' = true)]

theorem isEofLine_of_head (s : String) (c : Char) (rest : List Char)
    (hs : s.data = c :: rest) (hc : c ≠ '\\') : isEofLine s = false := by
  apply decide_eq_false
  intro hEq
  have hh : s.data.head? = eofLiteral.data.head? := by rw [hEq]
  rw [hs] at hh
  rw [show eofLiteral.data.head? = some '\\' from rfl] at hh
  simp only [List.head?_cons, Option.some_inj] at hh
  exact hc hh

theorem renderGenLine_del (g : GenLine) (hk : g.kind = GenKind.del) :
    renderGenLine g = "-" ++ g.text := by
  simp [renderGenLine, hk]

theorem renderGenLine_add (g : GenLine) (hk : g.kind = GenKind.add) :
    renderGenLine g = "+" ++ g.text := by
  simp [renderGenLine, hk]

theorem renderGenLine_ctx (g : GenLine) (hk : g.kind = GenKind.ctx) :
    renderGenLine g = " " ++ g.text := by
  simp [renderGenLine, hk]

theorem drop_one_prefix (c : Char) (t : String) (s : String)
    (hs : s.data = c :: t.data) : s.drop 1 = t := by
  apply String.ext
  rw [String.data_drop, hs]
  rfl

theorem jsStartsWith_dash (s : String) (c : Char) (rest : List Char)
    (hs : s.data = c :: rest) : jsStartsWith s "-" = decide (c = '-') := by
  unfold jsStartsWith
  rw [hs, show ("-" : String).data = ['-'] from rfl]
  simp [listLeads]

theorem jsStartsWith_plus_head (s : String) (c : Char) (rest : List Char)
    (hs : s.data = c :: rest) : jsStartsWith s "+" = decide (c = '+') := by
  unfold jsStartsWith
  rw [hs, show ("+" : String).data = ['+'] from rfl]
  simp [listLeads]

theorem startsWsLine_head (s : String) (c : Char) (rest : List Char)
    (hs : s.data = c :: rest) : startsWsLine s = isJsSpace c := by
  simp [startsWsLine, hs]

theorem parseLine_render_del (g : GenLine) (hk : g.kind = GenKind.del)
    (F : List ParsedFile) (pf : ParsedFile) (C : List DiffChunk)
    (ch : DiffChunk) (dlc alc fco fcn : Int)
    (hpf : pf.chunks = C ++ [ch]) :
    parseLine ⟨F ++ [pf], some F.length, dlc, alc, some ⟨fco, fcn⟩⟩
        (renderGenLine g) =
      ⟨F ++ [{ pf with
          chunks := C ++ [{ ch with changes := ch.changes ++
            [{ type := "del", ln := some dlc, content := g.text }] }],
          deletions := pf.deletions + 1 }],
        some F.length, dlc + 1, alc,
        if fco - 1 = 0 ∧ fcn = 0 then none else some ⟨fco - 1, fcn⟩⟩ := by
  have hline := renderGenLine_del g hk
  have hdata : (renderGenLine g).data = '-' :: g.text.data := by
    rw [hline, String.data_append]; rfl
  have heof : isEofLine (renderGenLine g) = false :=
    isEofLine_of_head _ '-' g.text.data hdata (by decide)
  have hdash : jsStartsWith (renderGenLine g) "-" = true := by
    rw [jsStartsWith_dash _ _ _ hdata]; decide
  have hdrop : (renderGenLine g).drop 1 = g.text :=
    drop_one_prefix '-' g.text _ hdata
  have hdh : delHandler (renderGenLine g)
      ⟨F ++ [pf], some F.length, dlc, alc, some ⟨fco, fcn⟩⟩ =
      ⟨F ++ [{ pf with
          chunks := C ++ [{ ch with changes := ch.changes ++
            [{ type := "del", ln := some dlc, content := g.text }] }],
          deletions := pf.deletions + 1 }],
        some F.length, dlc + 1, alc, some ⟨fco - 1, fcn⟩⟩ := by
    have hstep : delHandler (renderGenLine g)
        ⟨F ++ [pf], some F.length, dlc, alc, some ⟨fco, fcn⟩⟩ =
        ⟨updateLast (updateAt (F ++ [pf]) F.length (fun pf0 =>
            { pf0 with chunks := updateLast pf0.chunks (fun ch0 =>
                { ch0 with changes := ch0.changes ++
                  [{ type := "del", ln := some dlc,
                     content := (renderGenLine g).drop 1 }] }) }))
          (fun pf0 => { pf0 with deletions := pf0.deletions + 1 }),
          some F.length, dlc + 1, alc, some ⟨fco - 1, fcn⟩⟩ := by
      cases F <;> rfl
    rw [hstep, hdrop, updateAt_append_last]
    rw [hpf, updateLast_append, updateLast_append]
  simp only [parseLine, Option.isSome_some, eq_self_iff_true, if_true]
  simp only [parseContentLine, heof, Bool.false_eq_true, if_false, hdash,
    if_true, hdh]
  by_cases hb : fco - 1 = 0 ∧ fcn = 0
  · simp only [if_pos hb]
  · simp only [if_neg hb]

theorem parseLine_render_add (g : GenLine) (hk : g.kind = GenKind.add)
    (F : List ParsedFile) (pf : ParsedFile) (C : List DiffChunk)
    (ch : DiffChunk) (dlc alc fco fcn : Int)
    (hpf : pf.chunks = C ++ [ch]) :
    parseLine ⟨F ++ [pf], some F.length, dlc, alc, some ⟨fco, fcn⟩⟩
        (renderGenLine g) =
      ⟨F ++ [{ pf with
          chunks := C ++ [{ ch with changes := ch.changes ++
            [{ type := "add", ln := some alc, content := g.text }] }],
          additions := pf.additions + 1 }],
        some F.length, dlc, alc + 1,
        if fco = 0 ∧ fcn - 1 = 0 then none else some ⟨fco, fcn - 1⟩⟩ := by
  have hline := renderGenLine_add g hk
  have hdata : (renderGenLine g).data = '+' :: g.text.data := by
    rw [hline, String.data_append]; rfl
  have heof : isEofLine (renderGenLine g) = false :=
    isEofLine_of_head _ '+' g.text.data hdata (by decide)
  have hdash : jsStartsWith (renderGenLine g) "-" = false := by
    rw [jsStartsWith_dash _ _ _ hdata]; decide
  have hplus : jsStartsWith (renderGenLine g) "+" = true := by
    rw [jsStartsWith_plus_head _ _ _ hdata]; decide
  have hdrop : (renderGenLine g).drop 1 = g.text :=
    drop_one_prefix '+' g.text _ hdata
  have hdh : addHandler (renderGenLine g)
      ⟨F ++ [pf], some F.length, dlc, alc, some ⟨fco, fcn⟩⟩ =
      ⟨F ++ [{ pf with
          chunks := C ++ [{ ch with changes := ch.changes ++
            [{ type := "add", ln := some alc, content := g.text }] }],
          additions := pf.additions + 1 }],
        some F.length, dlc, alc + 1, some ⟨fco, fcn - 1⟩⟩ := by
    have hstep : addHandler (renderGenLine g)
        ⟨F ++ [pf], some F.length, dlc, alc, some ⟨fco, fcn⟩⟩ =
        ⟨updateLast (updateAt (F ++ [pf]) F.length (fun pf0 =>
            { pf0 with chunks := updateLast pf0.chunks (fun ch0 =>
                { ch0 with changes := ch0.changes ++
                  [{ type := "add", ln := some alc,
                     content := (renderGenLine g).drop 1 }] }) }))
          (fun pf0 => { pf0 with additions := pf0.additions + 1 }),
          some F.length, dlc, alc + 1, some ⟨fco, fcn - 1⟩⟩ := by
      cases F <;> rfl
    rw [hstep, hdrop, updateAt_append_last]
    rw [hpf, updateLast_append, updateLast_append]
  simp only [parseLine, Option.isSome_some, eq_self_iff_true, if_true]
  simp only [parseContentLine, heof, Bool.false_eq_true, if_false, hdash,
    hplus, if_true, hdh]
  by_cases hb : fco = 0 ∧ fcn - 1 = 0
  · simp only [if_pos hb]
  · simp only [if_neg hb]

theorem parseLine_render_ctx (g : GenLine) (hk : g.kind = GenKind.ctx)
    (F : List ParsedFile) (pf : ParsedFile) (C : List DiffChunk)
    (ch : DiffChunk) (dlc alc fco fcn : Int)
    (hpf : pf.chunks = C ++ [ch]) :
    parseLine ⟨F ++ [pf], some F.length, dlc, alc, some ⟨fco, fcn⟩⟩
        (renderGenLine g) =
      ⟨F ++ [{ pf with
          chunks := C ++ [{ ch with changes := ch.changes ++
            [{ type := "normal", ln1 := some dlc, ln2 := some alc,
               content := g.text }] }] }],
        some F.length, dlc + 1, alc + 1,
        if fco - 1 = 0 ∧ fcn - 1 = 0 then none
        else some ⟨fco - 1, fcn - 1⟩⟩ := by
  have hline := renderGenLine_ctx g hk
  have hdata : (renderGenLine g).data = ' ' :: g.text.data := by
    rw [hline, String.data_append]; rfl
  have heof : isEofLine (renderGenLine g) = false :=
    isEofLine_of_head _ ' ' g.text.data hdata (by decide)
  have hdash : jsStartsWith (renderGenLine g) "-" = false := by
    rw [jsStartsWith_dash _ _ _ hdata]; decide
  have hplus : jsStartsWith (renderGenLine g) "+" = false := by
    rw [jsStartsWith_plus_head _ _ _ hdata]; decide
  have hws : startsWsLine (renderGenLine g) = true := by
    rw [startsWsLine_head _ _ _ hdata]; decide
  have hdrop : (renderGenLine g).drop 1 = g.text :=
    drop_one_prefix ' ' g.text _ hdata
  have hdh : normalHandler (renderGenLine g)
      ⟨F ++ [pf], some F.length, dlc, alc, some ⟨fco, fcn⟩⟩ =
      ⟨F ++ [{ pf with
          chunks := C ++ [{ ch with changes := ch.changes ++
            [{ type := "normal", ln1 := some dlc, ln2 := some alc,
               content := g.text }] }] }],
        some F.length, dlc + 1, alc + 1, some ⟨fco - 1, fcn - 1⟩⟩ := by
    have hstep : normalHandler (renderGenLine g)
        ⟨F ++ [pf], some F.length, dlc, alc, some ⟨fco, fcn⟩⟩ =
        ⟨updateAt (F ++ [pf]) F.length (fun pf0 =>
            { pf0 with chunks := updateLast pf0.chunks (fun ch0 =>
                { ch0 with changes := ch0.changes ++
                  [{ type := "normal", ln1 := some dlc, ln2 := some alc,
                     content := (renderGenLine g).drop 1 }] }) }),
          some F.length, dlc + 1, alc + 1, some ⟨fco - 1, fcn - 1⟩⟩ := rfl
    rw [hstep, hdrop, updateAt_append_last]
    rw [hpf, updateLast_append]
  simp only [parseLine, Option.isSome_some, eq_self_iff_true, if_true]
  simp only [parseContentLine, heof, Bool.false_eq_true, if_false, hdash,
    hplus, hws, if_true, hdh]
  by_cases hb : fco - 1 = 0 ∧ fcn - 1 = 0
  · simp only [if_pos hb]
  · simp only [if_neg hb]

theorem genLine_counts_pos (g : GenLine) (r : List GenLine) :
    0 < oldCount (g :: r) + newCount (g :: r) := by
  rcases hg : g.kind <;>
    simp [oldCount, newCount, List.countP_cons, hg]

theorem processBody (rest : List GenLine) :
    ∀ (F : List ParsedFile) (pf : ParsedFile) (C : List DiffChunk)
      (ch : DiffChunk) (dlc alc : Int),
    rest ≠ [] →
    pf.chunks = C ++ [ch] →
    List.foldl parseLine
        ⟨F ++ [pf], some F.length, dlc, alc,
          some ⟨(oldCount rest : Int), (newCount rest : Int)⟩⟩
        (rest.map renderGenLine) =
      ⟨F ++ [{ pf with
          chunks := C ++ [{ ch with
            changes := ch.changes ++ bodyChanges dlc alc rest }],
          deletions := pf.deletions + countDel rest,
          additions := pf.additions + countAdd rest }],
        some F.length, dlc + oldCount rest, alc + newCount rest, none⟩ := by
  induction rest with
  | nil => intro _ _ _ _ _ _ hne _; exact absurd rfl hne
  | cons g rest ih =>
    intro F pf C ch dlc alc _ hpf
    rcases hrest : rest with _ | ⟨g2, r2⟩
    · subst hrest
      rcases hgk : g.kind
      · have h1 : oldCount [g] = 1 := by
          simp [oldCount, List.countP_cons, hgk]
        have h2 : newCount [g] = 0 := by
          simp [newCount, List.countP_cons, hgk]
        have h3 : countDel [g] = 1 := by
          simp [countDel, List.countP_cons, hgk]
        have h4 : countAdd [g] = 0 := by
          simp [countAdd, List.countP_cons, hgk]
        have h5 : bodyChanges dlc alc [g] =
            [{ type := "del", ln := some dlc, content := g.text }] := by
          simp [bodyChanges, hgk]
        rw [h1, h2, h3, h4, h5, List.map_cons, List.map_nil,
          List.foldl_cons, List.foldl_nil,
          parseLine_render_del g hgk F pf C ch dlc alc _ _ hpf,
          if_pos (by norm_num)]
        simp
      · have h1 : oldCount [g] = 0 := by
          simp [oldCount, List.countP_cons, hgk]
        have h2 : newCount [g] = 1 := by
          simp [newCount, List.countP_cons, hgk]
        have h3 : countDel [g] = 0 := by
          simp [countDel, List.countP_cons, hgk]
        have h4 : countAdd [g] = 1 := by
          simp [countAdd, List.countP_cons, hgk]
        have h5 : bodyChanges dlc alc [g] =
            [{ type := "add", ln := some alc, content := g.text }] := by
          simp [bodyChanges, hgk]
        rw [h1, h2, h3, h4, h5, List.map_cons, List.map_nil,
          List.foldl_cons, List.foldl_nil,
          parseLine_render_add g hgk F pf C ch dlc alc _ _ hpf,
          if_pos (by norm_num)]
        simp
      · have h1 : oldCount [g] = 1 := by
          simp [oldCount, List.countP_cons, hgk]
        have h2 : newCount [g] = 1 := by
          simp [newCount, List.countP_cons, hgk]
        have h3 : countDel [g] = 0 := by
          simp [countDel, List.countP_cons, hgk]
        have h4 : countAdd [g] = 0 := by
          simp [countAdd, List.countP_cons, hgk]
        have h5 : bodyChanges dlc alc [g] =
            [{ type := "normal", ln1 := some dlc, ln2 := some alc,
               content := g.text }] := by
          simp [bodyChanges, hgk]
        rw [h1, h2, h3, h4, h5, List.map_cons, List.map_nil,
          List.foldl_cons, List.foldl_nil,
          parseLine_render_ctx g hgk F pf C ch dlc alc _ _ hpf,
          if_pos (by norm_num)]
        simp
    · subst hrest
      have hp := genLine_counts_pos g2 r2
      rcases hgk : g.kind
      · have h1 : oldCount (g :: g2 :: r2) = oldCount (g2 :: r2) + 1 := by
          simp [oldCount, List.countP_cons, hgk]
        have h2 : newCount (g :: g2 :: r2) = newCount (g2 :: r2) := by
          simp [newCount, List.countP_cons, hgk]
        have h3 : countDel (g :: g2 :: r2) = countDel (g2 :: r2) + 1 := by
          simp [countDel, List.countP_cons, hgk]
        have h4 : countAdd (g :: g2 :: r2) = countAdd (g2 :: r2) := by
          simp [countAdd, List.countP_cons, hgk]
        have h5 : bodyChanges dlc alc (g :: g2 :: r2) =
            { type := "del", ln := some dlc, content := g.text } ::
              bodyChanges (dlc + 1) alc (g2 :: r2) := by
          simp [bodyChanges, hgk]
        rw [h1, h2, h3, h4, h5, List.map_cons, List.foldl_cons,
          parseLine_render_del g hgk F pf C ch dlc alc _ _ hpf,
          if_neg (by push_cast; omega)]
        rw [show ((oldCount (g2 :: r2) + 1 : Nat) : Int) - 1 =
            ((oldCount (g2 :: r2) : Nat) : Int) by push_cast; ring]
        rw [ih F _ C _ (dlc + 1) alc (by simp) rfl]
        simp only [PState.mk.injEq, ParsedFile.mk.injEq, DiffChunk.mk.injEq,
          List.append_cancel_left_eq, List.cons.injEq, List.append_assoc,
          List.singleton_append, true_and, and_true, eq_self_iff_true]
        push_cast
        omega
      · have h1 : oldCount (g :: g2 :: r2) = oldCount (g2 :: r2) := by
          simp [oldCount, List.countP_cons, hgk]
        have h2 : newCount (g :: g2 :: r2) = newCount (g2 :: r2) + 1 := by
          simp [newCount, List.countP_cons, hgk]
        have h3 : countDel (g :: g2 :: r2) = countDel (g2 :: r2) := by
          simp [countDel, List.countP_cons, hgk]
        have h4 : countAdd (g :: g2 :: r2) = countAdd (g2 :: r2) + 1 := by
          simp [countAdd, List.countP_cons, hgk]
        have h5 : bodyChanges dlc alc (g :: g2 :: r2) =
            { type := "add", ln := some alc, content := g.text } ::
              bodyChanges dlc (alc + 1) (g2 :: r2) := by
          simp [bodyChanges, hgk]
        rw [h1, h2, h3, h4, h5, List.map_cons, List.foldl_cons,
          parseLine_render_add g hgk F pf C ch dlc alc _ _ hpf,
          if_neg (by push_cast; omega)]
        rw [show ((newCount (g2 :: r2) + 1 : Nat) : Int) - 1 =
            ((newCount (g2 :: r2) : Nat) : Int) by push_cast; ring]
        rw [ih F _ C _ dlc (alc + 1) (by simp) rfl]
        simp only [PState.mk.injEq, ParsedFile.mk.injEq, DiffChunk.mk.injEq,
          List.append_cancel_left_eq, List.cons.injEq, List.append_assoc,
          List.singleton_append, true_and, and_true, eq_self_iff_true]
        push_cast
        omega
      · have h1 : oldCount (g :: g2 :: r2) = oldCount (g2 :: r2) + 1 := by
          simp [oldCount, List.countP_cons, hgk]
        have h2 : newCount (g :: g2 :: r2) = newCount (g2 :: r2) + 1 := by
          simp [newCount, List.countP_cons, hgk]
        have h3 : countDel (g :: g2 :: r2) = countDel (g2 :: r2) := by
          simp [countDel, List.countP_cons, hgk]
        have h4 : countAdd (g :: g2 :: r2) = countAdd (g2 :: r2) := by
          simp [countAdd, List.countP_cons, hgk]
        have h5 : bodyChanges dlc alc (g :: g2 :: r2) =
            { type := "normal", ln1 := some dlc, ln2 := some alc,
              content := g.text } ::
              bodyChanges (dlc + 1) (alc + 1) (g2 :: r2) := by
          simp [bodyChanges, hgk]
        rw [h1, h2, h3, h4, h5, List.map_cons, List.foldl_cons,
          parseLine_render_ctx g hgk F pf C ch dlc alc _ _ hpf,
          if_neg (by push_cast; omega)]
        rw [show ((oldCount (g2 :: r2) + 1 : Nat) : Int) - 1 =
            ((oldCount (g2 :: r2) : Nat) : Int) by push_cast; ring]
        rw [show ((newCount (g2 :: r2) + 1 : Nat) : Int) - 1 =
            ((newCount (g2 :: r2) : Nat) : Int) by push_cast; ring]
        rw [ih F _ C _ (dlc + 1) (alc + 1) (by simp) rfl]
        simp only [PState.mk.injEq, ParsedFile.mk.injEq, DiffChunk.mk.injEq,
          List.append_cancel_left_eq, List.cons.injEq, List.append_assoc,
          List.singleton_append, true_and, and_true, eq_self_iff_true]
        push_cast
        omega

theorem parseHeaderLine_at_chunk (line : String) (cs : List Char)
    (caps : Nat × Option Nat × Nat × Option Nat) (st : PState)
    (hl : line.data = '@' :: cs)
    (hm : matchChunkHeader line = some caps) :
    parseHeaderLine line st = chunkHandler line caps st := by
  have h1 : isDiffLine line = false := by
    simp [isDiffLine, hl]
  have h2 : matchModeLine "new file mode " line = none := by
    simp [matchModeLine, hl, dropLeadChars]
  have h3 : matchModeLine "deleted file mode " line = none := by
    simp [matchModeLine, hl, dropLeadChars]
  have h4 : matchModeLine "old mode " line = none := by
    simp [matchModeLine, hl, dropLeadChars]
  have h5 : matchModeLine "new mode " line = none := by
    simp [matchModeLine, hl, dropLeadChars]
  have h6 : matchIndexLine line = none := by
    simp [matchIndexLine, hl, dropLeadChars]
  have h7 : isFromFileLine line = false := by simp [isFromFileLine, hl]
  have h8 : isToFileLine line = false := by simp [isToFileLine, hl]
  simp only [parseHeaderLine, h1, Bool.false_eq_true, if_false, h2, h3, h4,
    h5, h6, h7, h8, hm]

theorem chunkHandler_render (h : GenHunk) (F : List ParsedFile)
    (pf : ParsedFile) (j₀ : Option Nat) (d₀ a₀ : Int) :
    chunkHandler (renderHunkHeader h)
        (h.oldStart, some (oldCount h.body), h.newStart,
          some (newCount h.body))
        ⟨F ++ [pf], j₀, d₀, a₀, none⟩ =
      ⟨F ++ [{ pf with chunks := pf.chunks ++
          [{ content := renderHunkHeader h, changes := [],
             oldStart := h.oldStart, oldLines := oldCount h.body,
             newStart := h.newStart, newLines := newCount h.body }] }],
        some F.length, (h.oldStart : Int), (h.newStart : Int),
        some ⟨(oldCount h.body : Int), (newCount h.body : Int)⟩⟩ := by
  have hne : (F ++ [pf]).isEmpty = false := by
    cases F <;> rfl
  simp only [chunkHandler, hne, Bool.false_eq_true, if_false,
    Option.getD_some]
  rw [updateLast_append]
  simp [List.length_append]

theorem processHunk (hk : GenHunk) (hok : genHunkOk hk)
    (F : List ParsedFile) (pf : ParsedFile) (j₀ : Option Nat)
    (d₀ a₀ : Int) :
    List.foldl parseLine ⟨F ++ [pf], j₀, d₀, a₀, none⟩ (renderHunk hk) =
      ⟨F ++ [{ pf with
          chunks := pf.chunks ++ [finalChunk hk],
          deletions := pf.deletions + countDel hk.body,
          additions := pf.additions + countAdd hk.body }],
        some F.length, (hk.oldStart : Int) + oldCount hk.body,
        (hk.newStart : Int) + newCount hk.body, none⟩ := by
  obtain ⟨hne, hlines⟩ := hok
  rw [renderHunk, List.foldl_cons]
  have hhl : parseLine ⟨F ++ [pf], j₀, d₀, a₀, none⟩ (renderHunkHeader hk) =
      chunkHandler (renderHunkHeader hk)
        (hk.oldStart, some (oldCount hk.body), hk.newStart,
          some (newCount hk.body)) ⟨F ++ [pf], j₀, d₀, a₀, none⟩ := by
    simp only [parseLine, Option.isSome_none, Bool.false_eq_true, if_false]
    exact parseHeaderLine_at_chunk _ _ _ _ (renderHunkHeader_data hk)
      (matchChunkHeader_render hk)
  rw [hhl, chunkHandler_render]
  rw [processBody hk.body F _ pf.chunks _ _ _ hne rfl]
  simp [finalChunk]

theorem countOld_bodyChanges (body : List GenLine) :
    ∀ dlc alc, countOldChanges (bodyChanges dlc alc body) = oldCount body := by
  induction body with
  | nil => intro _ _; rfl
  | cons g r ih =>
    intro dlc alc
    rcases hgk : g.kind
    · have h5 : bodyChanges dlc alc (g :: r) =
          { type := "del", ln := some dlc, content := g.text } ::
            bodyChanges (dlc + 1) alc r := by simp [bodyChanges, hgk]
      have hc := ih (dlc + 1) alc
      simp only [countOldChanges, oldCount] at hc ⊢
      rw [h5, List.countP_cons, List.countP_cons, hc]
      simp [hgk]
    · have h5 : bodyChanges dlc alc (g :: r) =
          { type := "add", ln := some alc, content := g.text } ::
            bodyChanges dlc (alc + 1) r := by simp [bodyChanges, hgk]
      have hc := ih dlc (alc + 1)
      simp only [countOldChanges, oldCount] at hc ⊢
      rw [h5, List.countP_cons, List.countP_cons, hc]
      simp [hgk]
    · have h5 : bodyChanges dlc alc (g :: r) =
          { type := "normal", ln1 := some dlc, ln2 := some alc,
            content := g.text } ::
            bodyChanges (dlc + 1) (alc + 1) r := by simp [bodyChanges, hgk]
      have hc := ih (dlc + 1) (alc + 1)
      simp only [countOldChanges, oldCount] at hc ⊢
      rw [h5, List.countP_cons, List.countP_cons, hc]
      simp [hgk]

theorem countNew_bodyChanges (body : List GenLine) :
    ∀ dlc alc, countNewChanges (bodyChanges dlc alc body) = newCount body := by
  induction body with
  | nil => intro _ _; rfl
  | cons g r ih =>
    intro dlc alc
    rcases hgk : g.kind
    · have h5 : bodyChanges dlc alc (g :: r) =
          { type := "del", ln := some dlc, content := g.text } ::
            bodyChanges (dlc + 1) alc r := by simp [bodyChanges, hgk]
      have hc := ih (dlc + 1) alc
      simp only [countNewChanges, newCount] at hc ⊢
      rw [h5, List.countP_cons, List.countP_cons, hc]
      simp [hgk]
    · have h5 : bodyChanges dlc alc (g :: r) =
          { type := "add", ln := some alc, content := g.text } ::
            bodyChanges dlc (alc + 1) r := by simp [bodyChanges, hgk]
      have hc := ih dlc (alc + 1)
      simp only [countNewChanges, newCount] at hc ⊢
      rw [h5, List.countP_cons, List.countP_cons, hc]
      simp [hgk]
    · have h5 : bodyChanges dlc alc (g :: r) =
          { type := "normal", ln1 := some dlc, ln2 := some alc,
            content := g.text } ::
            bodyChanges (dlc + 1) (alc + 1) r := by simp [bodyChanges, hgk]
      have hc := ih (dlc + 1) (alc + 1)
      simp only [countNewChanges, newCount] at hc ⊢
      rw [h5, List.countP_cons, List.countP_cons, hc]
      simp [hgk]

theorem finalChunk_account (h : GenHunk) :
    (finalChunk h).oldLines = countOldChanges (finalChunk h).changes ∧
    (finalChunk h).newLines = countNewChanges (finalChunk h).changes := by
  constructor
  · show oldCount h.body = countOldChanges (bodyChanges _ _ h.body)
    rw [countOld_bodyChanges]
  · show newCount h.body = countNewChanges (bodyChanges _ _ h.body)
    rw [countNew_bodyChanges]

theorem account_of_map (pfF : ParsedFile) (hs : List GenHunk)
    (h : pfF.chunks = hs.map finalChunk) : AccountOk pfF := by
  intro ch hch
  rw [h] at hch
  obtain ⟨hk, _, rfl⟩ := List.mem_map.mp hch
  exact finalChunk_account hk

theorem processHunks (hs : List GenHunk) :
    ∀ (F : List ParsedFile) (pf : ParsedFile) (j₀ : Option Nat)
      (d₀ a₀ : Int),
    (∀ h ∈ hs, genHunkOk h) →
    ∃ j d a delc addc,
      List.foldl parseLine ⟨F ++ [pf], j₀, d₀, a₀, none⟩
          ((hs.map renderHunk).flatten) =
        ⟨F ++ [{ pf with
            chunks := pf.chunks ++ hs.map finalChunk,
            deletions := delc, additions := addc }],
          j, d, a, none⟩ := by
  induction hs with
  | nil =>
    intro F pf j₀ d₀ a₀ _
    exact ⟨j₀, d₀, a₀, pf.deletions, pf.additions, by simp⟩
  | cons h hs ih =>
    intro F pf j₀ d₀ a₀ hok
    have hpf1 : ∃ pf1 : ParsedFile, pf1 =
        { pf with
          chunks := pf.chunks ++ [finalChunk h],
          deletions := pf.deletions + countDel h.body,
          additions := pf.additions + countAdd h.body } := ⟨_, rfl⟩
    obtain ⟨pf1, hpf1⟩ := hpf1
    obtain ⟨j, d, a, delc, addc, hfold⟩ :=
      ih F pf1 (some F.length) ((h.oldStart : Int) + oldCount h.body)
        ((h.newStart : Int) + newCount h.body)
        (fun h2 hh => hok h2 (List.mem_cons_of_mem _ hh))
    rw [hpf1] at hfold
    refine ⟨j, d, a, delc, addc, ?_⟩
    rw [List.map_cons, List.flatten_cons, List.foldl_append,
      processHunk h (hok h (List.mem_cons_self _ _)) F pf j₀ d₀ a₀, hfold]
    simp [List.append_assoc]

theorem isDiffLine_start (p : String) :
    isDiffLine ("diff --git a/" ++ p ++ " b/" ++ p) = true := by
  simp [isDiffLine, String.data_append]
  decide

theorem parseHeaderLine_start (p : String) (st : PState) :
    parseHeaderLine ("diff --git a/" ++ p ++ " b/" ++ p) st =
      startHandler ("diff --git a/" ++ p ++ " b/" ++ p) st := by
  simp only [parseHeaderLine, isDiffLine_start, eq_self_iff_true, if_true]

theorem startHandler_eq (line : String) (st : PState) :
    startHandler line st =
      { st with files := st.files ++ [freshParsedFile line] } := rfl

theorem processFile (f : GenFile) (hok : genFileOk f)
    (F : List ParsedFile) (j₀ : Option Nat) (d₀ a₀ : Int) :
    ∃ j d a pfF,
      List.foldl parseLine ⟨F, j₀, d₀, a₀, none⟩ (renderFile f) =
        ⟨F ++ [pfF], j, d, a, none⟩ ∧
      pfF.chunks = f.hunks.map finalChunk := by
  obtain ⟨hnl, hhok⟩ := hok
  rw [renderFile, List.foldl_cons]
  have hstart : parseLine ⟨F, j₀, d₀, a₀, none⟩
      ("diff --git a/" ++ f.path ++ " b/" ++ f.path) =
      ⟨F ++ [freshParsedFile
          ("diff --git a/" ++ f.path ++ " b/" ++ f.path)],
        j₀, d₀, a₀, none⟩ := by
    simp only [parseLine, Option.isSome_none, Bool.false_eq_true, if_false]
    rw [parseHeaderLine_start, startHandler_eq]
  rw [hstart]
  obtain ⟨j, d, a, delc, addc, hfold⟩ :=
    processHunks f.hunks F (freshParsedFile _) j₀ d₀ a₀ hhok
  exact ⟨j, d, a, _, hfold, by simp [freshParsedFile]⟩

theorem processFiles (fs : List GenFile) :
    ∀ (F : List ParsedFile) (j₀ : Option Nat) (d₀ a₀ : Int),
    genDiffOk fs →
    ∃ j d a pfs,
      List.foldl parseLine ⟨F, j₀, d₀, a₀, none⟩ (renderLines fs) =
        ⟨F ++ pfs, j, d, a, none⟩ ∧
      ∀ pfF ∈ pfs, AccountOk pfF := by
  induction fs with
  | nil =>
    intro F j₀ d₀ a₀ _
    exact ⟨j₀, d₀, a₀, [], by simp [renderLines], by simp⟩
  | cons f fs ih =>
    intro F j₀ d₀ a₀ hok
    obtain ⟨j1, d1, a1, pfF, hf1, hchunks⟩ :=
      processFile f (hok f (List.mem_cons_self _ _)) F j₀ d₀ a₀
    obtain ⟨j, d, a, pfs, hf2, hall⟩ :=
      ih (F ++ [pfF]) j1 d1 a1
        (fun f2 hf => hok f2 (List.mem_cons_of_mem _ hf))
    refine ⟨j, d, a, pfF :: pfs, ?_, ?_⟩
    · simp only [renderLines, List.map_cons, List.flatten_cons,
        List.foldl_append]
      simp only [renderLines] at hf2
      rw [hf1, hf2]
      simp
    · intro pf0 hpf0
      rcases List.mem_cons.mp hpf0 with rfl | hm
      · exact account_of_map pf0 f.hunks hchunks
      · exact hall pf0 hm

theorem jsSplitChar_no_sep (sep : Char) (l : List Char) (h : sep ∉ l) :
    jsSplitChar sep l = [l] := by
  induction l with
  | nil => rfl
  | cons c r ih =>
    have hc : ¬ (c = sep) := fun hc => h (hc ▸ List.mem_cons_self c r)
    have hr : sep ∉ r := fun hm => h (List.mem_cons_of_mem _ hm)
    simp [jsSplitChar, hc, ih hr]

theorem jsSplitChar_append_sep (sep : Char) (l1 l2 : List Char)
    (h : sep ∉ l1) :
    jsSplitChar sep (l1 ++ sep :: l2) = l1 :: jsSplitChar sep l2 := by
  induction l1 with
  | nil => simp [jsSplitChar]
  | cons c r ih =>
    have hc : ¬ (c = sep) := fun hc => h (hc ▸ List.mem_cons_self c r)
    have hr : sep ∉ r := fun hm => h (List.mem_cons_of_mem _ hm)
    simp only [List.cons_append, jsSplitChar, hc, if_false]
    rw [show (r.append (sep :: l2)) = r ++ sep :: l2 from rfl, ih hr]

theorem jsSplitNl_joinNl (L : List String) :
    L ≠ [] → (∀ s ∈ L, '\n' ∉ s.data) → jsSplitNl (joinNl L) = L := by
  induction L with
  | nil => intro h _; exact absurd rfl h
  | cons x L ih =>
    intro _ hnl
    rcases hL : L with _ | ⟨y, M⟩
    · subst hL
      show jsSplitNl x = [x]
      unfold jsSplitNl
      rw [jsSplitChar_no_sep '\n' x.data (hnl x (by simp))]
      rfl
    · subst hL
      show jsSplitNl (x ++ "\n" ++ joinNl (y :: M)) = x :: y :: M
      unfold jsSplitNl
      have hdata : (x ++ "\n" ++ joinNl (y :: M)).data =
          x.data ++ '\n' :: (joinNl (y :: M)).data := by
        simp [String.data_append]
      rw [hdata, jsSplitChar_append_sep '\n' _ _ (hnl x (by simp)),
        List.map_cons]
      have hih := ih (by simp)
        (fun s hs => hnl s (List.mem_cons_of_mem _ hs))
      unfold jsSplitNl at hih
      exact congrArg (List.cons x) hih

theorem natToChars_no_nl (n : Nat) : '\n' ∉ natToChars n := by
  intro hm
  have hd := natToChars_all_digits n '\n' hm
  exact absurd hd (by decide)

theorem renderHunkHeader_no_nl (h : GenHunk) :
    '\n' ∉ (renderHunkHeader h).data := by
  intro hm
  rw [renderHunkHeader_data] at hm
  simp at hm
  rcases hm with h1 | h1 | h1 | h1 <;> exact natToChars_no_nl _ h1

theorem renderGenLine_no_nl (g : GenLine) (h : genLineOk g) :
    '\n' ∉ (renderGenLine g).data := by
  rcases hgk : g.kind
  · rw [renderGenLine_del g hgk]
    intro hm
    rw [String.data_append] at hm
    simp at hm
    exact h hm
  · rw [renderGenLine_add g hgk]
    intro hm
    rw [String.data_append] at hm
    simp at hm
    exact h hm
  · rw [renderGenLine_ctx g hgk]
    intro hm
    rw [String.data_append] at hm
    simp at hm
    exact h hm

theorem startLine_no_nl (p : String) (h : '\n' ∉ p.data) :
    '\n' ∉ ("diff --git a/" ++ p ++ " b/" ++ p).data := by
  intro hm
  simp [String.data_append] at hm
  exact h hm

theorem renderLines_no_nl (fs : List GenFile) (hok : genDiffOk fs) :
    ∀ s ∈ renderLines fs, '\n' ∉ s.data := by
  intro s hs
  simp only [renderLines, List.mem_flatten, List.mem_map] at hs
  obtain ⟨ls, ⟨f, hf, rfl⟩, hsl⟩ := hs
  obtain ⟨hnl, hhok⟩ := hok f hf
  simp only [renderFile, List.mem_cons, List.mem_flatten,
    List.mem_map] at hsl
  rcases hsl with rfl | ⟨lh, ⟨hk, hh, rfl⟩, hsh⟩
  · exact startLine_no_nl f.path hnl
  · simp only [renderHunk, List.mem_cons, List.mem_map] at hsh
    rcases hsh with rfl | ⟨g, hg, rfl⟩
    · exact renderHunkHeader_no_nl hk
    · exact renderGenLine_no_nl g ((hhok hk hh).2 g hg)

theorem renderLines_ne_nil (f : GenFile) (fs : List GenFile) :
    renderLines (f :: fs) ≠ [] := by
  simp [renderLines, renderFile]

/-- **C2, amended**: for every well-formed abstract unified diff — files
with newline-free paths and hunks with non-empty, newline-free bodies,
rendered to text with the `@@`-header counts computed from the body —
every chunk produced by `parseDiff` on the rendered text satisfies the
round-trip accounting: `oldLines` equals the number of parsed changes of
type deletion plus context, and `newLines` equals the number of parsed
changes of type addition plus context.  The restriction to texts without
the `\ No newline at end of file` marker matters: see the
counterexample. -/
theorem c2_amended_round_trip_accounting (fs : List GenFile)
    (hok : genDiffOk fs) :
    ∀ pf ∈ parseDiff (renderDiff fs), AccountOk pf := by
  intro pf hpf
  simp only [parseDiff] at hpf
  by_cases h0 : renderDiff fs = ""
  · rw [if_pos h0] at hpf; simp at hpf
  rw [if_neg h0] at hpf
  by_cases hws : (renderDiff fs).data.all isJsSpace = true
  · rw [if_pos hws] at hpf; simp at hpf
  rw [if_neg hws] at hpf
  rcases hfs : fs with _ | ⟨f, fs2⟩
  · rw [hfs] at h0; exact absurd rfl h0
  subst hfs
  have hlines : jsSplitNl (renderDiff (f :: fs2)) =
      renderLines (f :: fs2) := by
    rw [show renderDiff (f :: fs2) =
        joinNl (renderLines (f :: fs2)) from rfl]
    exact jsSplitNl_joinNl _ (renderLines_ne_nil f fs2)
      (renderLines_no_nl _ hok)
  rw [hlines] at hpf
  rw [if_neg (by simp [renderLines, renderFile])] at hpf
  obtain ⟨j, d, a, pfs, hfold, hall⟩ :=
    processFiles (f :: fs2) [] none 0 0 hok
  rw [show initPState = (⟨[], none, 0, 0, none⟩ : PState) from rfl,
    hfold] at hpf
  exact hall pf (by simpa using hpf)

/-- **C2, counterexample**: the claim as stated fails on a valid
unified-diff text containing the `\ No newline at end of file` marker.
On this diff the `eof` handler appends a copy of the preceding deletion
change, so the hunk header's `oldLines = 1` no longer equals the number
of parsed deletion-plus-context changes (2). -/
theorem c2_counterexample :
    ∃ pf ∈ parseDiff
        "diff --git a/f b/f\n@@ -1 +1 @@\n-a\n\\ No newline at end of file\n+b",
      ∃ ch ∈ pf.chunks,
        ¬ (ch.oldLines = countOldChanges ch.changes ∧
           ch.newLines = countNewChanges ch.changes) := by decide

/-- Witness for the amended C2 at a concrete well-formed diff: one file,
one hunk `@@ -1,1 +1,1 @@` replacing `a` by `b`. -/
theorem c2_witness :
    genDiffOk [GenFile.mk "f.txt"
      [GenHunk.mk 1 1 [GenLine.mk GenKind.del "a",
                       GenLine.mk GenKind.add "b"]]] ∧
    ∀ pf ∈ parseDiff (renderDiff [GenFile.mk "f.txt"
        [GenHunk.mk 1 1 [GenLine.mk GenKind.del "a",
                         GenLine.mk GenKind.add "b"]]]),
      AccountOk pf :=
  ⟨by unfold genDiffOk genFileOk genHunkOk genLineOk; decide,
   c2_amended_round_trip_accounting _
     (by unfold genDiffOk genFileOk genHunkOk genLineOk; decide)⟩
